import Mathlib

/-!
Verification development for PyALE's 1D ALE estimators (`src/ALE_1D.py`).

Tables are lists of rows of an abstract row type `α`; the studied feature
column is read and written through explicit accessor functions
(`getF`/`setF` for the continuous, rational-valued case; `getZ`/`setZ` for
the discrete, integer-valued case).  The model, the quantile provider and
the confidence-interval provider are abstract function parameters, exactly
as they are external collaborators of the estimators.  Machine floats are
embedded as exact rationals; `Option` models NaN and Python exceptions at
the places where the code can produce them.
-/

namespace PyALE

/-- Python `int(q)` on a rational: truncation toward zero. -/
def pyInt (q : ℚ) : ℤ := if 0 ≤ q then ⌊q⌋ else ⌈q⌉

/-- `np.arange(start, stop, step)` for positive `step`, in exact arithmetic:
`⌈(stop - start)/step⌉` points `start + i * step`. -/
def npArange (start stop step : ℚ) : List ℚ :=
  (List.range (⌈(stop - start) / step⌉).toNat).map (fun i : ℕ => start + (i : ℚ) * step)

/-- Line 30: `np.append(0, np.arange(1/grid_size, 1 + 1/grid_size, 1/grid_size))`. -/
def quantilesSeq (g : ℕ) : List ℚ :=
  0 :: npArange (1 / (g : ℚ)) (1 + 1 / (g : ℚ)) (1 / (g : ℚ))

/-- Sorted insertion that drops a value already present (helper for `npUnique`). -/
def insDedup {κ : Type} [LinearOrder κ] (x : κ) : List κ → List κ
  | [] => [x]
  | y :: ys => if x < y then x :: y :: ys else if x = y then y :: ys else y :: insDedup x ys

/-- `np.unique`: the distinct values, sorted ascending.  Also models
`pandas.unique` followed by an in-place `sort` (line 87-88). -/
def npUnique {κ : Type} [LinearOrder κ] (l : List κ) : List κ := l.foldr insDedup []

/-- Python builtin `min` over a list (`0` for the empty list, where Python raises). -/
def pyMin (l : List ℚ) : ℚ :=
  match l with
  | [] => 0
  | x :: xs => xs.foldl min x

/-- `bins.searchsorted(v, side="left")` on a sorted `bins`: the number of bin
edges strictly below `v`. -/
def cutSearch (bins : List ℚ) (v : ℚ) : ℕ := bins.countP (fun b => decide (b < v))

/-- The id assigned by `pd.cut(..., include_lowest=True)` before validity masking:
values equal to the first edge are forced into the first interval. -/
def cutId (bins : List ℚ) (v : ℚ) : ℕ :=
  if bins.head? = some v then 1 else cutSearch bins v

/-- The category code `pd.cut` assigns to `v` (`none` = NaN, Python code `-1`):
valid iff the id is neither `0` nor `len(bins)`; the code is `id - 1`. -/
def cutCode (bins : List ℚ) (v : ℚ) : Option ℕ :=
  if 1 ≤ cutId bins v ∧ cutId bins v < bins.length then some (cutId bins v - 1) else none

/-- Line 42, `bins[i]` for a code `i` (`-1` for NaN rows: numpy wraps to the last edge). -/
def x1Val (bins : List ℚ) : Option ℕ → ℚ
  | none => bins.getLastD 0
  | some c => bins.getD c 0

/-- Lines 43 and 47, `bins[i + 1]` (`-1 + 1 = 0` for NaN rows: the first edge). -/
def x2Val (bins : List ℚ) : Option ℕ → ℚ
  | none => bins.headD 0
  | some c => bins.getD (c + 1) 0

/-- Count of occurrences of `v` in `l`, as a rational. -/
def countVal {κ : Type} [DecidableEq κ] (l : List κ) (v : κ) : ℚ :=
  (l.countP (fun x => decide (x = v)) : ℕ)

/-- Group size of key `k` in a delta table (`groupby(...).size()`). -/
def sizeAt {κ : Type} [DecidableEq κ] (dr : List (κ × ℚ)) (k : κ) : ℚ :=
  countVal (dr.map Prod.fst) k

/-- The delta values of group `k`, in original row order. -/
def valsAt {κ : Type} [DecidableEq κ] (dr : List (κ × ℚ)) (k : κ) : List ℚ :=
  (dr.filter (fun p => decide (p.1 = k))).map Prod.snd

/-- Group mean of key `k` (`groupby(...).mean()`). -/
def meanAt {κ : Type} [DecidableEq κ] (dr : List (κ × ℚ)) (k : κ) : ℚ :=
  (valsAt dr k).sum / sizeAt dr k

/-- A row of the continuous aggregation `res_df`: index value, `size`, `eff`. -/
structure ARow where
  key : ℚ
  size : ℚ
  eff : ℚ
deriving DecidableEq, Repr

/-- Ordered insertion by key (helper for `sort_index`). -/
def insByKey {ρ κ : Type} [LinearOrder κ] (key : ρ → κ) (x : ρ) : List ρ → List ρ
  | [] => [x]
  | y :: ys => if key x ≤ key y then x :: y :: ys else y :: insByKey key x ys

/-- `DataFrame.sort_index()`: sort rows by their key. -/
def sortByKey {ρ κ : Type} [LinearOrder κ] (key : ρ → κ) (l : List ρ) : List ρ :=
  l.foldr (insByKey key) []

/-- `res_df.loc[k] = 0`: overwrite the row with key `k` if present, else append
a fresh row at the end (pandas appends new labels positionally last). -/
def upsertRow {ρ : Type} (hit : ρ → Bool) (z : ρ) (rows : List ρ) : List ρ :=
  if rows.any hit then rows.map (fun r => if hit r then z else r) else rows ++ [z]

/-- Line 48: `delta_df.groupby([feature]).Delta.agg(["size", ("eff", "mean")])` —
one row per distinct key, sorted, with group size and group mean. -/
def aggregateC (dr : List (ℚ × ℚ)) : List ARow :=
  (npUnique (dr.map Prod.fst)).map (fun k => ⟨k, sizeAt dr k, meanAt dr k⟩)

/-- Line 49: `res_df["eff"] = res_df["eff"].cumsum()`. -/
def cumsumC : ℚ → List ARow → List ARow
  | _, [] => []
  | a, r :: rs => ⟨r.key, r.size, a + r.eff⟩ :: cumsumC (a + r.eff) rs

/-- `res_df["size"].sum()`. -/
def sumSize (rows : List ARow) : ℚ := (rows.map ARow.size).sum

/-- Lines 52-54, the numerator: `((eff + eff.shift(1, fill_value=0)) / 2 * size).sum()`
with `p` the running previous `eff` (initially the fill value `0`). -/
def mvSum : ℚ → List ARow → ℚ
  | _, [] => 0
  | p, r :: rs => (p + r.eff) / 2 * r.size + mvSum r.eff rs

/-- The two-point moving-average weighted sum over consecutive rows only:
for each adjacent pair, value = mean of the pair's `eff`, weight = later row's
`size` (the spec's §4.1 step 8 wording). -/
def pairSum : List ARow → ℚ
  | a :: b :: t => (a.eff + b.eff) / 2 * b.size + pairSum (b :: t)
  | _ => 0

/-- The §4.1 step 8 centering constant read literally over a key-sorted table. -/
def specCenterConstant (rows : List ARow) : ℚ := pairSum rows / sumSize rows

/-- First-match association lookup (pandas index alignment for distinct keys). -/
def lookupKey {κ β : Type} [DecidableEq κ] : List (κ × β) → κ → Option β
  | [], _ => none
  | p :: ps, k => if p.1 = k then some p.2 else lookupKey ps k

section ContinuousEstimator

variable {α : Type} (getF : α → ℚ) (setF : ℚ → α → α)
variable (predict : List α → List ℚ) (provider : List ℚ → List ℚ → List ℚ)

/-- The column `X[feature]`. -/
def contSample (X : List α) : List ℚ := X.map getF

/-- Lines 33-34: `np.unique([X[feature].min()] + quantile_ied(X[feature], quantiles).to_list())`. -/
def contBins (X : List α) (g : ℕ) : List ℚ :=
  npUnique (pyMin (contSample getF X) :: provider (contSample getF X) (quantilesSeq g))

/-- Lines 40, 42: `X1 = X.copy(); X1[feature] = [bins[i] for i in bin_codes]`. -/
def contX1 (X : List α) (g : ℕ) : List α :=
  X.map (fun r => setF (x1Val (contBins getF provider X g) (cutCode (contBins getF provider X g) (getF r))) r)

/-- Lines 41, 43: `X2 = X.copy(); X2[feature] = [bins[i + 1] for i in bin_codes]`. -/
def contX2 (X : List α) (g : ℕ) : List α :=
  X.map (fun r => setF (x2Val (contBins getF provider X g) (cutCode (contBins getF provider X g) (getF r))) r)

/-- Line 47, the key column of `delta_df`: `bins[bin_codes + 1]`. -/
def contKeys (X : List α) (g : ℕ) : List ℚ :=
  X.map (fun r => x2Val (contBins getF provider X g) (cutCode (contBins getF provider X g) (getF r)))

/-- Line 47, the `Delta` column: `y_2 - y_1` with `y_1 = model.predict(X1)`,
`y_2 = model.predict(X2)` (lines 44-45). -/
def contDeltas (X : List α) (g : ℕ) : List ℚ :=
  List.zipWith (fun a b => a - b) (predict (contX2 getF setF provider X g)) (predict (contX1 getF setF provider X g))

/-- `delta_df`: one `(feature-key, Delta)` row per observation. -/
def contDeltaRows (X : List α) (g : ℕ) : List (ℚ × ℚ) :=
  (contKeys getF provider X g).zip (contDeltas getF setF predict provider X g)

/-- Lines 48-49: group sizes and means, then the cumulative sum of `eff`. -/
def contAgg (X : List α) (g : ℕ) : List ARow :=
  cumsumC 0 (aggregateC (contDeltaRows getF setF predict provider X g))

/-- `min(bins)` of line 50. -/
def contAnchorKey (X : List α) (g : ℕ) : ℚ := pyMin (contBins getF provider X g)

/-- Line 50: `res_df.loc[min(bins), :] = 0`. -/
def contUpserted (X : List α) (g : ℕ) : List ARow :=
  upsertRow (fun r => decide (r.key = contAnchorKey getF provider X g))
    ⟨contAnchorKey getF provider X g, 0, 0⟩ (contAgg getF setF predict provider X g)

/-- Lines 52-54: `mean_mv_avg`. -/
def contMeanMvAvg (X : List α) (g : ℕ) : ℚ :=
  mvSum 0 (contUpserted getF setF predict provider X g) / sumSize (contUpserted getF setF predict provider X g)

/-- Line 55: `res_df.sort_index().assign(eff=res_df["eff"] - mean_mv_avg)`. -/
def contCentered (X : List α) (g : ℕ) : List ARow :=
  (sortByKey ARow.key (contUpserted getF setF predict provider X g)).map
    (fun r => ⟨r.key, r.size, r.eff - contMeanMvAvg getF setF predict provider X g⟩)

/-- Lines 57-61: `delta_df.groupby(feature).Delta.agg([("CI_estimate", ...)])`,
one half-width per bin key from that bin's raw deltas. -/
def ciAggRows (dr : List (ℚ × ℚ)) (CIprov : List ℚ → ℚ → ℚ) (C : ℚ) : List (ℚ × ℚ) :=
  (npUnique (dr.map Prod.fst)).map (fun k => (k, CIprov (valsAt dr k) C))

/-- A returned row of the continuous estimator; the CI cells are `Option`
because index alignment leaves NaN at the anchor row. -/
structure CRowOut where
  key : ℚ
  size : ℚ
  eff : ℚ
  lowerCI : Option ℚ
  upperCI : Option ℚ
deriving DecidableEq, Repr

/-- Lines 56-68: the returned `res_df`, with the aligned CI columns when
`include_CI` is set (lines 64-67: `eff - CI_estimate`, `eff + CI_estimate`). -/
def contRows (X : List α) (g : ℕ) (includeCI : Bool) (CIprov : List ℚ → ℚ → ℚ) (C : ℚ) :
    List CRowOut :=
  (contCentered getF setF predict provider X g).map (fun r =>
    if includeCI then
      ⟨r.key, r.size, r.eff,
        (lookupKey (ciAggRows (contDeltaRows getF setF predict provider X g) CIprov C) r.key).map
          (fun h => r.eff - h),
        (lookupKey (ciAggRows (contDeltaRows getF setF predict provider X g) CIprov C) r.key).map
          (fun h => r.eff + h)⟩
    else ⟨r.key, r.size, r.eff, none, none⟩)

/-- Line 62: `"lowerCI_" + str(int(C * 100)) + "%"`. -/
def lowerCIName (C : ℚ) : String := "lowerCI_" ++ toString (pyInt (C * 100)) ++ "%"

/-- Line 63: `"upperCI_" + str(int(C * 100)) + "%"`. -/
def upperCIName (C : ℚ) : String := "upperCI_" ++ toString (pyInt (C * 100)) ++ "%"

/-- The tables passed to `model.predict`, in call order (lines 44-45). -/
def contPredictTrace (X : List α) (g : ℕ) : List (List α) :=
  [contX1 getF setF provider X g, contX2 getF setF provider X g]

end ContinuousEstimator

/-- `(rows.map size).sum` over returned rows. -/
def sumSizeOut (rows : List CRowOut) : ℚ := (rows.map CRowOut.size).sum

/-- Adjacent-pair moving-average weighted sum over returned rows. -/
def pairSumOut : List CRowOut → ℚ
  | a :: b :: t => (a.eff + b.eff) / 2 * b.size + pairSumOut (b :: t)
  | _ => 0

/-- The `size`-weighted mean of the two-point moving average of `eff` over
consecutive returned rows (weight of a pair = later row's `size`). -/
def wStatOut (rows : List CRowOut) : ℚ := pairSumOut rows / sumSizeOut rows

/-- numpy indexing `l[i]` with an integer index: negative indices wrap once,
anything outside `[-len, len)` raises IndexError (`none`). -/
def pyGet (l : List ℤ) (i : ℤ) : Option ℤ :=
  if 0 ≤ i ∧ i < l.length then some (l.getD i.toNat 0)
  else if -(l.length : ℤ) ≤ i ∧ i < 0 then some (l.getD ((l.length : ℤ) + i).toNat 0)
  else none

/-- A row of the discrete aggregation `res_df`: level key, `Delta` (group mean)
and `eff` (its cumulative sum). -/
structure DRow where
  key : ℤ
  delta : ℚ
  eff : ℚ
deriving DecidableEq, Repr

/-- Line 122 for the discrete table: group means of the `Delta` column, one
row per distinct key in sorted key order (`eff` filled in afterwards). -/
def aggregateD (dr : List (ℤ × ℚ)) : List DRow :=
  (npUnique (dr.map Prod.fst)).map (fun k => ⟨k, meanAt dr k, 0⟩)

/-- Line 123: `res_df["eff"] = res_df["Delta"].cumsum()`. -/
def cumsumD : ℚ → List DRow → List DRow
  | _, [] => []
  | a, r :: rs => ⟨r.key, r.delta, a + r.delta⟩ :: cumsumD (a + r.delta) rs

/-- Pointwise product-sum of two equally long value lists. -/
def dotQ (xs ys : List ℚ) : ℚ := (List.zipWith (fun a b => a * b) xs ys).sum

/-- pandas `sum(series_a * series_b)` for two key-sorted series with distinct
keys: the union alignment is NaN-free exactly when the key lists coincide;
otherwise some aligned cell is NaN and the Python sum is NaN (`none`). -/
def seriesMulSum (a b : List (ℤ × ℚ)) : Option ℚ :=
  if a.map Prod.fst = b.map Prod.fst then some (dotQ (a.map Prod.snd) (b.map Prod.snd)) else none

/-- A returned row of the discrete estimator: `eff` is `Option` because the
centering constant of line 126 is NaN when the index alignment fails. -/
structure DRowOut where
  key : ℤ
  delta : ℚ
  eff : Option ℚ
deriving DecidableEq, Repr

/-- The claim's "next-higher level" of `v` among the sorted distinct levels. -/
def specNextHigher (groups : List ℤ) (v : ℤ) : Option ℤ :=
  (groups.filter (fun w => decide (v < w))).head?

/-- The claim's "next-lower level" of `v` among the sorted distinct levels. -/
def specNextLower (groups : List ℤ) (v : ℤ) : Option ℤ :=
  (groups.filter (fun w => decide (w < v))).getLast?

section DiscreteEstimator

variable {α : Type} (getZ : α → ℤ) (setZ : ℤ → α → α) (predictZ : List α → List ℚ)

/-- The raw feature column of the discrete table. -/
def discVals (X : List α) : List ℤ := X.map getZ

/-- Lines 87-88: `groups = X[feature].unique(); groups.sort()`. -/
def discGroups (X : List α) : List ℤ := npUnique (discVals getZ X)

/-- Lines 91-92: the empirical level proportions `groups_counts / sum(groups_counts)`. -/
def discProps (X : List α) : List (ℤ × ℚ) :=
  (discGroups getZ X).map (fun v => (v, countVal (discVals getZ X) v / (X.length : ℚ)))

/-- Line 100: `ind_plus = X[feature] < groups[K - 1]`. -/
def maskPlus (X : List α) (r : α) : Bool := decide (getZ r < (discGroups getZ X).getLastD 0)

/-- Line 102: `ind_neg = X[feature] > groups[0]`. -/
def maskNeg (X : List α) (r : α) : Bool := decide ((discGroups getZ X).headD 0 < getZ r)

/-- Lines 97, 104: `X_plus = X.copy(); X_plus.loc[ind_plus, feature] = groups[X.loc[ind_plus, feature] + 1]`.
The feature value itself is used as an index into `groups`; an out-of-range
index raises IndexError (`none`). -/
def discXPlus (X : List α) : Option (List α) :=
  X.mapM (fun r =>
    if maskPlus getZ X r then (pyGet (discGroups getZ X) (getZ r + 1)).map (fun w => setZ w r)
    else some r)

/-- Lines 98, 106: `X_neg = X.copy(); X_neg.loc[ind_neg, feature] = groups[X.loc[ind_neg, feature] - 1]`. -/
def discXNeg (X : List α) : Option (List α) :=
  X.mapM (fun r =>
    if maskNeg getZ X r then (pyGet (discGroups getZ X) (getZ r - 1)).map (fun w => setZ w r)
    else some r)

end DiscreteEstimator

/-- Boolean-mask row selection `Y[mask]` where the mask is evaluated on the
positionally matching row of `X` (pandas aligns the boolean series by index). -/
def maskedSel {α : Type} (X Y : List α) (mask : α → Bool) : List α :=
  ((X.zip Y).filter (fun p => mask p.1)).map Prod.snd

/-- `ys[mask]` for a prediction vector `ys` aligned with `X`. -/
def maskedVals {α : Type} (X : List α) (ys : List ℚ) (mask : α → Bool) : List ℚ :=
  ((X.zip ys).filter (fun p => mask p.1)).map Prod.snd

section DiscretePipeline

variable {α : Type} (getZ : α → ℤ) (setZ : ℤ → α → α) (predictZ : List α → List ℚ)

/-- Line 118's key column: `X.loc[ind_plus, feature] + 1`. -/
def discKeysPlus (X : List α) : List ℤ :=
  (X.filter (maskPlus getZ X)).map (fun r => getZ r + 1)

/-- Line 119's key column: `X.loc[ind_neg, feature]`. -/
def discKeysNeg (X : List α) : List ℤ :=
  (X.filter (maskNeg getZ X)).map getZ

/-- Line 112: `Delta_plus = y_hat_plus - y_hat[ind_plus]` with
`y_hat_plus = model.predict(X_plus[ind_plus])` (line 109). -/
def discDeltaPlus (X XP : List α) : List ℚ :=
  List.zipWith (fun a b => a - b) (predictZ (maskedSel X XP (maskPlus getZ X)))
    (maskedVals X (predictZ X) (maskPlus getZ X))

/-- Line 113: `Delta_neg = y_hat[ind_neg] - y_hat_neg` with
`y_hat_neg = model.predict(X_neg[ind_neg])` (line 110). -/
def discDeltaNeg (X XN : List α) : List ℚ :=
  List.zipWith (fun a b => a - b) (maskedVals X (predictZ X) (maskNeg getZ X))
    (predictZ (maskedSel X XN (maskNeg getZ X)))

/-- Lines 116-121: the concatenated forward and backward delta rows. -/
def discDeltaRows (X XP XN : List α) : List (ℤ × ℚ) :=
  (discKeysPlus getZ X).zip (discDeltaPlus getZ predictZ X XP)
    ++ (discKeysNeg getZ X).zip (discDeltaNeg getZ predictZ X XN)

/-- Lines 122-125: group means, cumulative sum, `res_df.loc[0] = 0`, `sort_index()`. -/
def discPre (X XP XN : List α) : List DRow :=
  sortByKey DRow.key
    (upsertRow (fun r => decide (r.key = 0)) ⟨0, 0, 0⟩
      (cumsumD 0 (aggregateD (discDeltaRows getZ predictZ X XP XN))))

/-- Line 126's centering constant `sum(res_df["eff"] * groups_props)`
(`none` = NaN when the two indexes do not align). -/
def discCenter (X XP XN : List α) : Option ℚ :=
  seriesMulSum ((discPre getZ predictZ X XP XN).map (fun r => (r.key, r.eff)))
    (discProps getZ X)

/-- Line 126-127: the returned rows, `eff` recentred (NaN-propagating). -/
def discRowsFrom (X XP XN : List α) : List DRowOut :=
  (discPre getZ predictZ X XP XN).map
    (fun r => ⟨r.key, r.delta, (discCenter getZ predictZ X XP XN).map (fun c => r.eff - c)⟩)

/-- `aleplot_1D_discrete` end to end: `none` models the IndexError that
lines 104/106 raise when a feature value is not a valid index into `groups`. -/
def discCompute (X : List α) : Option (List DRowOut) :=
  match discXPlus getZ setZ X, discXNeg getZ setZ X with
  | some XP, some XN => some (discRowsFrom getZ predictZ X XP XN)
  | _, _ => none

/-- The tables passed to `model.predict`, in call order (lines 108-110);
`none` when the IndexError of line 104/106 fires first. -/
def discPredictTrace (X : List α) : Option (List (List α)) :=
  match discXPlus getZ setZ X, discXNeg getZ setZ X with
  | some XP, some XN =>
      some [X, maskedSel X XP (maskPlus getZ X), maskedSel X XN (maskNeg getZ X)]
  | _, _ => none

end DiscretePipeline

/-- `(List.range K).map Int.ofNat`: the integer-coded levels `0..K-1`. -/
def rangeZ (K : ℕ) : List ℤ := (List.range K).map (fun i : ℕ => (i : ℤ))

/-! A small heap model for the aliasing/mutation claim: tables live at heap
addresses, `DataFrame.copy()` allocates a fresh address holding the same rows,
and a column assignment mutates the table at one address in place.  The
estimators' perturbation code (continuous lines 40-43, discrete lines 97-106)
is replayed statement by statement over this heap. -/

/-- A heap of tables; an address is an index. -/
abbrev Heap (α : Type) : Type := List (List α)

/-- `t.copy()`: allocate a fresh cell holding the rows stored at `src`. -/
def copyAlloc {α : Type} (h : Heap α) (src : ℕ) : Heap α × ℕ :=
  (h ++ [h.getD src []], h.length)

/-- In-place table update at address `a`. -/
def setTable {α : Type} (h : Heap α) (a : ℕ) (t : List α) : Heap α := h.set a t

/-- Whole-column assignment `T[feature] = vals` on the table at address `a`. -/
def setColAt {α : Type} (setF : ℚ → α → α) (h : Heap α) (a : ℕ) (vals : List ℚ) : Heap α :=
  setTable h a (List.zipWith setF vals (h.getD a []))

/-- Continuous lines 40-43 over the heap: `X` is at address 0;
`X1 = X.copy(); X2 = X.copy(); X1[feature] = ...; X2[feature] = ...`,
where both value lists are computed from reads of `X`. -/
def contHeapRun {α : Type} (getF : α → ℚ) (setF : ℚ → α → α)
    (provider : List ℚ → List ℚ → List ℚ) (X0 : List α) (g : ℕ) : Heap α :=
  let h0 : Heap α := [X0]
  let p1 := copyAlloc h0 0
  let p2 := copyAlloc p1.1 0
  let bins := contBins getF provider (p2.1.getD 0 []) g
  let vals1 := (p2.1.getD 0 []).map (fun r => x1Val bins (cutCode bins (getF r)))
  let h3 := setColAt setF p2.1 p1.2 vals1
  let vals2 := (h3.getD 0 []).map (fun r => x2Val bins (cutCode bins (getF r)))
  setColAt setF h3 p2.2 vals2

/-- Masked column assignment `T.loc[mask, feature] = vals` at address `a`:
rows whose positionally matching `X`-row satisfies the mask consume the next
value of `vals`; `vals` comes with one value per masked row. -/
def maskedAssign {α : Type} (setZ : ℤ → α → α) (mask : List Bool) (rows : List α)
    (vals : List ℤ) : List α :=
  match mask, rows, vals with
  | true :: ms, r :: rs, v :: vs => setZ v r :: maskedAssign setZ ms rs vs
  | true :: _, r :: rs, [] => r :: rs
  | false :: ms, r :: rs, vs => r :: maskedAssign setZ ms rs vs
  | _, rs, _ => rs

/-- Discrete lines 97-106 over the heap: `X` at address 0, two copies, then
the two masked assignments whose index vectors may raise IndexError (`none`).
All masks and index vectors are computed from reads of `X`. -/
def discHeapRun {α : Type} (getZ : α → ℤ) (setZ : ℤ → α → α) (X0 : List α) :
    Option (Heap α) :=
  let h0 : Heap α := [X0]
  let p1 := copyAlloc h0 0
  let p2 := copyAlloc p1.1 0
  let groups := discGroups getZ (p2.1.getD 0 [])
  let xRows := p2.1.getD 0 []
  match (xRows.filter (maskPlus getZ xRows)).mapM (fun r => pyGet groups (getZ r + 1)) with
  | none => none
  | some valsP =>
    let h3 := setTable p2.1 p1.2
      (maskedAssign setZ (xRows.map (maskPlus getZ xRows)) (p2.1.getD p1.2 []) valsP)
    let xRows3 := h3.getD 0 []
    match (xRows3.filter (maskNeg getZ xRows3)).mapM (fun r => pyGet groups (getZ r - 1)) with
    | none => none
    | some valsN =>
      some (setTable h3 p2.2
        (maskedAssign setZ (xRows3.map (maskNeg getZ xRows3)) (h3.getD p2.2 []) valsN))

/-! ### Toolkit lemmas -/

theorem mem_insDedup {κ : Type} [LinearOrder κ] (x a : κ) (l : List κ) :
    a ∈ insDedup x l ↔ a = x ∨ a ∈ l := by
  induction l with
  | nil => simp [insDedup]
  | cons y ys ih =>
    rcases lt_trichotomy x y with h1 | h1 | h1
    · simp [insDedup, h1]
    · subst h1
      have hr : insDedup x (x :: ys) = x :: ys := by simp [insDedup, lt_irrefl]
      rw [hr, List.mem_cons]
      tauto
    · have hnlt : ¬x < y := not_lt.mpr (le_of_lt h1)
      have hne : x ≠ y := ne_of_gt h1
      simp only [insDedup, if_neg hnlt, if_neg hne, List.mem_cons, ih]
      tauto

theorem pairwise_insDedup {κ : Type} [LinearOrder κ] (x : κ) (l : List κ)
    (h : l.Pairwise (· < ·)) : (insDedup x l).Pairwise (· < ·) := by
  induction l with
  | nil => simp [insDedup]
  | cons y ys ih =>
    rcases List.pairwise_cons.mp h with ⟨hy, hys⟩
    by_cases h1 : x < y
    · simp only [insDedup, if_pos h1]
      refine List.pairwise_cons.mpr ⟨?_, h⟩
      intro b hb
      rcases List.mem_cons.mp hb with hb | hb
      · exact hb ▸ h1
      · exact lt_trans h1 (hy b hb)
    · by_cases h2 : x = y
      · simpa [insDedup, if_neg h1, if_pos h2] using h
      · have hyx : y < x := lt_of_le_of_ne (not_lt.mp h1) (Ne.symm h2)
        simp only [insDedup, if_neg h1, if_neg h2]
        refine List.pairwise_cons.mpr ⟨?_, ih hys⟩
        intro b hb
        rcases (mem_insDedup x b ys).mp hb with hb | hb
        · exact hb ▸ hyx
        · exact hy b hb

theorem npUnique_pairwise {κ : Type} [LinearOrder κ] (l : List κ) :
    (npUnique l).Pairwise (· < ·) := by
  induction l with
  | nil => simp [npUnique]
  | cons x xs ih => exact pairwise_insDedup x _ ih

theorem mem_npUnique {κ : Type} [LinearOrder κ] (a : κ) (l : List κ) :
    a ∈ npUnique l ↔ a ∈ l := by
  induction l with
  | nil => simp [npUnique]
  | cons x xs ih =>
    show a ∈ insDedup x (npUnique xs) ↔ _
    rw [mem_insDedup, ih]
    simp

theorem pairwise_lt_head_lt {κ : Type} [LinearOrder κ] {a : κ} {l : List κ}
    (h : (a :: l).Pairwise (· < ·)) : ∀ x ∈ l, a < x :=
  (List.pairwise_cons.mp h).1

/-- Two strictly sorted lists with the same members are equal. -/
theorem sorted_lt_ext {κ : Type} [LinearOrder κ] :
    ∀ (s t : List κ), s.Pairwise (· < ·) → t.Pairwise (· < ·) →
      (∀ a, a ∈ s ↔ a ∈ t) → s = t := by
  intro s
  induction s with
  | nil =>
    intro t _ _ hmem
    cases t with
    | nil => rfl
    | cons b bs => exact absurd ((hmem b).mpr (List.mem_cons_self b bs)) (List.not_mem_nil b)
  | cons a as ih =>
    intro t hs ht hmem
    cases t with
    | nil => exact absurd ((hmem a).mp (List.mem_cons_self a as)) (List.not_mem_nil a)
    | cons b bs =>
      have hab : a = b := by
        rcases List.mem_cons.mp ((hmem a).mp (List.mem_cons_self a as)) with h | h
        · exact h
        · rcases List.mem_cons.mp ((hmem b).mpr (List.mem_cons_self b bs)) with h2 | h2
          · exact h2.symm
          · exact absurd (lt_trans (pairwise_lt_head_lt hs b h2) (pairwise_lt_head_lt ht a h))
              (lt_irrefl a)
      subst hab
      have htail : ∀ x, x ∈ as ↔ x ∈ bs := by
        intro x
        constructor
        · intro hx
          rcases List.mem_cons.mp ((hmem x).mp (List.mem_cons_of_mem a hx)) with h | h
          · exact absurd (h ▸ pairwise_lt_head_lt hs x hx) (lt_irrefl a)
          · exact h
        · intro hx
          rcases List.mem_cons.mp ((hmem x).mpr (List.mem_cons_of_mem a hx)) with h | h
          · exact absurd (h ▸ pairwise_lt_head_lt ht x hx) (lt_irrefl a)
          · exact h
      exact congrArg (a :: ·) (ih bs (List.pairwise_cons.mp hs).2 (List.pairwise_cons.mp ht).2 htail)

theorem foldl_min_eq_head {x : ℚ} {xs : List ℚ} (h : ∀ y ∈ xs, x ≤ y) :
    xs.foldl min x = x := by
  induction xs generalizing x with
  | nil => rfl
  | cons y ys ih =>
    have hxy : min x y = x := min_eq_left (h y (List.mem_cons_self y ys))
    show (y :: ys).foldl min x = x
    rw [List.foldl_cons, hxy]
    exact ih (fun z hz => h z (List.mem_cons_of_mem y hz))

/-- `min` over a strictly sorted nonempty list is its head. -/
theorem pyMin_of_sorted {x : ℚ} {xs : List ℚ} (h : (x :: xs).Pairwise (· < ·)) :
    pyMin (x :: xs) = x := by
  show xs.foldl min x = x
  exact foldl_min_eq_head (fun y hy => le_of_lt (pairwise_lt_head_lt h y hy))

theorem getD_mem {κ : Type} : ∀ (l : List κ) (n : ℕ) (d : κ), n < l.length → l.getD n d ∈ l := by
  intro l
  induction l with
  | nil => intro n d h; simp at h
  | cons x xs ih =>
    intro n d h
    cases n with
    | zero => simp
    | succ m =>
      simp only [List.getD_cons_succ]
      exact List.mem_cons_of_mem x (ih m d (by simpa using h))

/-- In a strictly sorted list, any in-range entry past the head is above the head. -/
theorem headD_lt_getD {l : List ℚ} (hs : l.Pairwise (· < ·)) {j : ℕ}
    (h1 : 1 ≤ j) (h2 : j < l.length) : l.headD 0 < l.getD j 0 := by
  cases l with
  | nil => simp at h2
  | cons x xs =>
    cases j with
    | zero => omega
    | succ m =>
      simp only [List.headD_cons, List.getD_cons_succ]
      exact pairwise_lt_head_lt hs _ (getD_mem xs m 0 (by simpa using h2))

theorem mem_insByKey {ρ κ : Type} [LinearOrder κ] (key : ρ → κ) (x a : ρ) (l : List ρ) :
    a ∈ insByKey key x l ↔ a = x ∨ a ∈ l := by
  induction l with
  | nil => simp [insByKey]
  | cons y ys ih =>
    by_cases h : key x ≤ key y
    · simp [insByKey, h]
    · simp only [insByKey, if_neg h, List.mem_cons, ih]
      tauto

theorem mem_sortByKey {ρ κ : Type} [LinearOrder κ] (key : ρ → κ) (a : ρ) (l : List ρ) :
    a ∈ sortByKey key l ↔ a ∈ l := by
  induction l with
  | nil => simp [sortByKey]
  | cons x xs ih =>
    show a ∈ insByKey key x (sortByKey key xs) ↔ _
    rw [mem_insByKey, ih]
    simp

theorem insByKey_pairwise_lt {ρ κ : Type} [LinearOrder κ] (key : ρ → κ) (x : ρ) (l : List ρ)
    (h : l.Pairwise (fun a b => key a < key b)) (hne : ∀ y ∈ l, key x ≠ key y) :
    (insByKey key x l).Pairwise (fun a b => key a < key b) := by
  induction l with
  | nil => simp [insByKey]
  | cons y ys ih =>
    rcases List.pairwise_cons.mp h with ⟨hy, hys⟩
    by_cases hle : key x ≤ key y
    · have hxy : key x < key y := lt_of_le_of_ne hle (hne y (List.mem_cons_self y ys))
      simp only [insByKey, if_pos hle]
      refine List.pairwise_cons.mpr ⟨?_, h⟩
      intro b hb
      rcases List.mem_cons.mp hb with hb | hb
      · exact hb ▸ hxy
      · exact lt_trans hxy (hy b hb)
    · have hyx : key y < key x := not_le.mp hle
      simp only [insByKey, if_neg hle]
      refine List.pairwise_cons.mpr ⟨?_, ih hys (fun z hz => hne z (List.mem_cons_of_mem y hz))⟩
      intro b hb
      rcases (mem_insByKey key x b ys).mp hb with hb | hb
      · exact hb ▸ hyx
      · exact hy b hb

theorem sortByKey_pairwise_lt {ρ κ : Type} [LinearOrder κ] (key : ρ → κ) (l : List ρ)
    (hnd : (l.map key).Nodup) : (sortByKey key l).Pairwise (fun a b => key a < key b) := by
  induction l with
  | nil => simp [sortByKey]
  | cons x xs ih =>
    have hnd2 : (key x :: xs.map key).Nodup := by simpa using hnd
    rcases List.pairwise_cons.mp hnd2 with ⟨hx, hxs⟩
    show (insByKey key x (sortByKey key xs)).Pairwise _
    refine insByKey_pairwise_lt key x _ (ih hxs) ?_
    intro y hy
    exact hx (key y) (List.mem_map_of_mem key ((mem_sortByKey key y xs).mp hy))

theorem insByKey_below_head {ρ κ : Type} [LinearOrder κ] (key : ρ → κ) (x : ρ) (l : List ρ)
    (h : ∀ y ∈ l, key x ≤ key y) : insByKey key x l = x :: l := by
  cases l with
  | nil => rfl
  | cons y ys => simp [insByKey, h y (List.mem_cons_self y ys)]

theorem foldr_insByKey_anchor {ρ κ : Type} [LinearOrder κ] (key : ρ → κ) (z : ρ) :
    ∀ (l : List ρ), l.Pairwise (fun a b => key a < key b) → (∀ y ∈ l, key z < key y) →
      l.foldr (insByKey key) [z] = z :: l := by
  intro l
  induction l with
  | nil => intro _ _; rfl
  | cons x xs ih =>
    intro hs hz
    rcases List.pairwise_cons.mp hs with ⟨hx, hxs⟩
    have ihx : xs.foldr (insByKey key) [z] = z :: xs :=
      ih hxs (fun y hy => hz y (List.mem_cons_of_mem x hy))
    show insByKey key x (xs.foldr (insByKey key) [z]) = z :: x :: xs
    rw [ihx]
    show (if key x ≤ key z then x :: z :: xs else z :: insByKey key x xs) = z :: x :: xs
    rw [if_neg (not_le.mpr (hz x (List.mem_cons_self x xs))),
      insByKey_below_head key x xs (fun y hy => le_of_lt (hx y hy))]

/-- Sorting a sorted list with a below-everything row appended moves that row to the front. -/
theorem sortByKey_append_anchor {ρ κ : Type} [LinearOrder κ] (key : ρ → κ) (z : ρ) (l : List ρ)
    (hs : l.Pairwise (fun a b => key a < key b)) (hz : ∀ y ∈ l, key z < key y) :
    sortByKey key (l ++ [z]) = z :: l := by
  have base : sortByKey key (l ++ [z]) = l.foldr (insByKey key) [z] := by
    show (l ++ [z]).foldr (insByKey key) [] = _
    rw [List.foldr_append]
    rfl
  rw [base, foldr_insByKey_anchor key z l hs hz]

theorem sum_map_add {ρ : Type} (l : List ρ) (f g : ρ → ℚ) :
    (l.map (fun r => f r + g r)).sum = (l.map f).sum + (l.map g).sum := by
  induction l with
  | nil => simp
  | cons x xs ih => simp [ih]; ring

theorem sum_map_indicator {κ : Type} [DecidableEq κ] (ks : List κ) (a : κ)
    (hnd : ks.Nodup) (ha : a ∈ ks) :
    (ks.map (fun k => if a = k then (1 : ℚ) else 0)).sum = 1 := by
  induction ks with
  | nil => simp at ha
  | cons k ks' ih =>
    rcases List.nodup_cons.mp hnd with ⟨hk, hnd'⟩
    rcases List.mem_cons.mp ha with h | h
    · subst h
      have hz : (ks'.map (fun k => if a = k then (1 : ℚ) else 0)).sum = 0 := by
        refine List.sum_eq_zero ?_
        intro q hq
        rcases List.mem_map.mp hq with ⟨b, hb, hbq⟩
        have : a ≠ b := fun hab => hk (hab ▸ hb)
        simpa [this] using hbq.symm
      simp [hz]
    · have hak : a ≠ k := fun h2 => hk (h2 ▸ h)
      simp [hak, ih hnd' h]

/-- Partition of the row count: the group sizes over the distinct keys sum to
the number of rows. -/
theorem sum_countVal {κ : Type} [LinearOrder κ] (l : List κ) :
    ((npUnique l).map (countVal l)).sum = (l.length : ℚ) := by
  have main : ∀ (m : List κ) (ks : List κ), ks.Nodup → (∀ x ∈ m, x ∈ ks) →
      (ks.map (countVal m)).sum = (m.length : ℚ) := by
    intro m
    induction m with
    | nil =>
      intro ks _ _
      refine List.sum_eq_zero ?_ |>.trans (by simp)
      intro q hq
      rcases List.mem_map.mp hq with ⟨b, _, hbq⟩
      simpa [countVal] using hbq.symm
    | cons x m' ih =>
      intro ks hnd hsub
      have hcnt : ∀ k, countVal (x :: m') k
          = countVal m' k + (if x = k then (1 : ℚ) else 0) := by
        intro k
        simp only [countVal, List.countP_cons]
        by_cases hxk : x = k <;> simp [hxk]
      have hrw : ks.map (countVal (x :: m'))
          = ks.map (fun k => countVal m' k + (if x = k then (1 : ℚ) else 0)) :=
        List.map_congr_left (fun k _ => hcnt k)
      rw [hrw, sum_map_add, ih ks hnd (fun y hy => hsub y (List.mem_cons_of_mem x hy)),
        sum_map_indicator ks x hnd (hsub x (List.mem_cons_self x m'))]
      simp only [List.length_cons]
      push_cast
      ring
  refine main l (npUnique l) ?_ ?_
  · exact (npUnique_pairwise l).imp ne_of_lt
  · exact fun x hx => (mem_npUnique x l).mpr hx

theorem lookupKey_map_self {κ β : Type} [DecidableEq κ] (ks : List κ) (f : κ → β) (k : κ) :
    lookupKey (ks.map (fun a => (a, f a))) k = if k ∈ ks then some (f k) else none := by
  induction ks with
  | nil => simp [lookupKey]
  | cons a ks' ih =>
    by_cases hak : a = k
    · subst hak
      simp [lookupKey]
    · simp only [List.map_cons, lookupKey, if_neg hak, ih, List.mem_cons]
      by_cases hk : k ∈ ks' <;> simp [hk, Ne.symm hak]

theorem cumsumC_keys (a : ℚ) (rows : List ARow) :
    (cumsumC a rows).map ARow.key = rows.map ARow.key := by
  induction rows generalizing a with
  | nil => rfl
  | cons r rs ih => simp [cumsumC, ih]

theorem cumsumC_sizes (a : ℚ) (rows : List ARow) :
    (cumsumC a rows).map ARow.size = rows.map ARow.size := by
  induction rows generalizing a with
  | nil => rfl
  | cons r rs ih => simp [cumsumC, ih]

theorem cumsumC_zero (rows : List ARow) (h : ∀ r ∈ rows, r.eff = 0) :
    cumsumC 0 rows = rows := by
  induction rows with
  | nil => rfl
  | cons r rs ih =>
    have hr : r.eff = 0 := h r (List.mem_cons_self r rs)
    have h2 : cumsumC 0 (r :: rs) = ⟨r.key, r.size, 0 + r.eff⟩ :: cumsumC (0 + r.eff) rs := rfl
    rw [h2, hr, add_zero]
    have h3 : (⟨r.key, r.size, 0⟩ : ARow) = r := by
      cases r
      simp_all
    rw [h3, ih (fun s hs => h s (List.mem_cons_of_mem r hs))]

theorem upsertRow_append {ρ : Type} (hit : ρ → Bool) (z : ρ) (rows : List ρ)
    (h : ∀ r ∈ rows, hit r = false) : upsertRow hit z rows = rows ++ [z] := by
  have : rows.any hit = false := List.any_eq_false.mpr (fun r hr => by simp [h r hr])
  simp [upsertRow, this]

/-- The pair-sum over `a :: l` equals the shift-based sum over `l` with initial
previous value `a.eff`. -/
theorem pairSum_cons_eq_mvSum (a : ARow) (l : List ARow) : pairSum (a :: l) = mvSum a.eff l := by
  induction l generalizing a with
  | nil => rfl
  | cons b t ih =>
    show (a.eff + b.eff) / 2 * b.size + pairSum (b :: t) = (a.eff + b.eff) / 2 * b.size + mvSum b.eff t
    rw [ih b]

/-- Appending a zero-`size` row does not change the shift-based sum. -/
theorem mvSum_append_zero_size (z : ARow) (hz : z.size = 0) :
    ∀ (p : ℚ) (l : List ARow), mvSum p (l ++ [z]) = mvSum p l := by
  intro p l
  induction l generalizing p with
  | nil => simp [mvSum, hz]
  | cons r rs ih =>
    show (p + r.eff) / 2 * r.size + mvSum r.eff (rs ++ [z]) = (p + r.eff) / 2 * r.size + mvSum r.eff rs
    rw [ih r.eff]

/-- Shifting every `eff` by a constant shifts the pair-sum by that constant times
the total `size` of all rows after the first. -/
theorem pairSum_center (c : ℚ) :
    ∀ (l : List ARow), pairSum (l.map (fun r => ⟨r.key, r.size, r.eff - c⟩))
      = pairSum l - c * sumSize l.tail := by
  intro l
  match l with
  | [] => simp [pairSum, sumSize]
  | [a] => simp [pairSum, sumSize]
  | a :: b :: t =>
    have ih := pairSum_center c (b :: t)
    have h1 : pairSum ((a :: b :: t).map (fun r => ⟨r.key, r.size, r.eff - c⟩))
        = (a.eff - c + (b.eff - c)) / 2 * b.size
          + pairSum ((b :: t).map (fun r => ⟨r.key, r.size, r.eff - c⟩)) := by
      simp only [List.map_cons]
      rfl
    have h2 : pairSum (a :: b :: t) = (a.eff + b.eff) / 2 * b.size + pairSum (b :: t) := rfl
    rw [h1, ih, h2]
    have h3 : sumSize (a :: b :: t).tail = b.size + sumSize (b :: t).tail := by
      simp [sumSize]
    rw [h3]
    ring

theorem sumSize_map_center (c : ℚ) (l : List ARow) :
    sumSize (l.map (fun r => ⟨r.key, r.size, r.eff - c⟩)) = sumSize l := by
  induction l with
  | nil => rfl
  | cons r rs ih =>
    simp only [sumSize, List.map_cons, List.sum_cons] at ih ⊢
    rw [ih]

theorem sumSize_append (l m : List ARow) : sumSize (l ++ m) = sumSize l + sumSize m := by
  simp [sumSize]

theorem sumSize_cons (r : ARow) (l : List ARow) : sumSize (r :: l) = r.size + sumSize l := by
  simp [sumSize]

/-- All-zero `eff` rows give a zero shift-based sum. -/
theorem mvSum_zero_eff (l : List ARow) (h : ∀ r ∈ l, r.eff = 0) : mvSum 0 l = 0 := by
  induction l with
  | nil => rfl
  | cons r rs ih =>
    have hr : r.eff = 0 := h r (List.mem_cons_self r rs)
    show (0 + r.eff) / 2 * r.size + mvSum r.eff rs = 0
    rw [hr, ih (fun s hs => h s (List.mem_cons_of_mem r hs))]
    ring

theorem dotQ_cons (x y : ℚ) (xs ys : List ℚ) :
    dotQ (x :: xs) (y :: ys) = x * y + dotQ xs ys := by
  simp [dotQ]

theorem dotQ_map_sub (c : ℚ) :
    ∀ (xs ys : List ℚ), xs.length = ys.length →
      dotQ (xs.map (fun x => x - c)) ys = dotQ xs ys - c * ys.sum := by
  intro xs
  induction xs with
  | nil =>
    intro ys h
    cases ys with
    | nil => simp [dotQ]
    | cons y t => simp at h
  | cons x xt ih =>
    intro ys h
    cases ys with
    | nil => simp at h
    | cons y yt =>
      rw [List.map_cons, dotQ_cons, dotQ_cons, ih yt (by simpa using h), List.sum_cons]
      ring

theorem dotQ_zero_left (xs ys : List ℚ) (h : ∀ x ∈ xs, x = 0) : dotQ xs ys = 0 := by
  induction xs generalizing ys with
  | nil => simp [dotQ]
  | cons x xt ih =>
    cases ys with
    | nil => simp [dotQ]
    | cons y yt =>
      have hx : x = 0 := h x (List.mem_cons_self x xt)
      have iht := ih yt (fun z hz => h z (List.mem_cons_of_mem x hz))
      simp only [dotQ, List.zipWith_cons_cons, List.sum_cons] at iht ⊢
      rw [hx, iht]
      ring

theorem mem_rangeZ (K : ℕ) (v : ℤ) : v ∈ rangeZ K ↔ 0 ≤ v ∧ v < K := by
  constructor
  · intro hv
    rcases List.mem_map.mp hv with ⟨i, hi, hvi⟩
    have hiK : i < K := List.mem_range.mp hi
    omega
  · rintro ⟨h0, hK⟩
    refine List.mem_map.mpr ⟨v.toNat, List.mem_range.mpr (by omega), by omega⟩

theorem rangeZ_pairwise (K : ℕ) : (rangeZ K).Pairwise (· < ·) := by
  have h2 : (List.range K).Pairwise (fun a b : ℕ => ((a : ℤ) < (b : ℤ))) :=
    (List.pairwise_lt_range K).imp (fun hab => by exact_mod_cast hab)
  exact List.pairwise_map.mpr h2

theorem rangeZ_succ_cons (K : ℕ) : rangeZ (K + 1) = 0 :: (rangeZ K).map (· + 1) := by
  simp only [rangeZ, List.range_succ_eq_map, List.map_cons, List.map_map]
  refine congrArg (((0 : ℕ) : ℤ) :: ·) (List.map_congr_left ?_)
  intro i _
  show ((i.succ : ℕ) : ℤ) = (i : ℤ) + 1
  push_cast
  ring

theorem rangeZ_getLast (K : ℕ) (h : 1 ≤ K) : (rangeZ K).getLastD 0 = (K : ℤ) - 1 := by
  rcases Nat.exists_eq_add_of_le h with ⟨m, rfl⟩
  rw [Nat.add_comm 1 m]
  show ((List.range (m + 1)).map (fun i : ℕ => (i : ℤ))).getLastD 0 = _
  rw [List.range_succ, List.map_append, List.map_cons]
  show (((List.range m).map (fun i : ℕ => (i : ℤ))) ++ [(m : ℤ)]).getLastD 0 = _
  rw [List.getLastD_concat]
  push_cast
  ring

theorem rangeZ_head (K : ℕ) (h : 1 ≤ K) : (rangeZ K).headD 0 = 0 := by
  rcases Nat.exists_eq_add_of_le h with ⟨m, rfl⟩
  rw [Nat.add_comm 1 m, rangeZ_succ_cons m]
  rfl

theorem rangeZ_getD (n : ℕ) (j : ℕ) (hj : j < n) : (rangeZ n).getD j 0 = (j : ℤ) := by
  show ((List.range n).map (fun i : ℕ => (i : ℤ))).getD j 0 = (j : ℤ)
  rw [List.getD_eq_getElem?_getD, List.getElem?_map]
  simp [List.getElem?_range hj]

theorem pyGet_rangeZ (K : ℕ) (i : ℤ) (h0 : 0 ≤ i) (hK : i < K) :
    pyGet (rangeZ K) i = some i := by
  have hlen : (rangeZ K).length = K := by simp [rangeZ]
  have hin : 0 ≤ i ∧ i < ((rangeZ K).length : ℤ) := ⟨h0, by rw [hlen]; exact_mod_cast hK⟩
  simp only [pyGet, if_pos hin]
  rw [rangeZ_getD K i.toNat (by omega)]
  congr 1
  omega

/-- `mapM` over `Option` succeeds pointwise. -/
theorem mapM_option_eq_map {α β : Type} (f : α → Option β) (g : α → β) :
    ∀ (l : List α), (∀ r ∈ l, f r = some (g r)) → l.mapM f = some (l.map g) := by
  intro l
  induction l with
  | nil => intro _; rfl
  | cons x xs ih =>
    intro h
    have hx : f x = some (g x) := h x (List.mem_cons_self x xs)
    have hxs : xs.mapM f = some (xs.map g) := ih (fun r hr => h r (List.mem_cons_of_mem x hr))
    rw [List.mapM_cons, hx, hxs]
    rfl

/-! ### Structural lemmas about the continuous pipeline -/

theorem cutCode_some_bounds {bins : List ℚ} {v : ℚ} {c : ℕ} (h : cutCode bins v = some c) :
    1 ≤ c + 1 ∧ c + 1 < bins.length ∧ x2Val bins (some c) = bins.getD (c + 1) 0 := by
  by_cases hP : 1 ≤ cutId bins v ∧ cutId bins v < bins.length
  · rw [cutCode, if_pos hP] at h
    have hc : c = cutId bins v - 1 := (Option.some_inj.mp h).symm
    refine ⟨by omega, by omega, rfl⟩
  · rw [cutCode, if_neg hP] at h
    exact absurd h (by simp)

theorem npUnique_cons_ne_nil {κ : Type} [LinearOrder κ] (x : κ) (l : List κ) :
    npUnique (x :: l) ≠ [] := by
  intro h
  have : x ∈ npUnique (x :: l) := (mem_npUnique x (x :: l)).mpr (List.mem_cons_self x l)
  rw [h] at this
  exact List.not_mem_nil x this

theorem pyMin_eq_headD {l : List ℚ} (hs : l.Pairwise (· < ·)) (hne : l ≠ []) :
    pyMin l = l.headD 0 := by
  cases l with
  | nil => exact absurd rfl hne
  | cons x xs => exact pyMin_of_sorted hs

section ContinuousLemmas

variable {α : Type} (getF : α → ℚ) (setF : ℚ → α → α)
variable (predict : List α → List ℚ) (provider : List ℚ → List ℚ → List ℚ)
variable (X : List α) (g : ℕ)

theorem contBins_ne_nil : contBins getF provider X g ≠ [] :=
  npUnique_cons_ne_nil _ _

theorem contBins_pairwise : (contBins getF provider X g).Pairwise (· < ·) :=
  npUnique_pairwise _

theorem contAnchorKey_eq_headD :
    contAnchorKey getF provider X g = (contBins getF provider X g).headD 0 :=
  pyMin_eq_headD (contBins_pairwise getF provider X g) (contBins_ne_nil getF provider X g)

/-- Under full bin coverage, every delta key lies strictly above the anchor key. -/
theorem contKeys_gt_anchor
    (hcov : ∀ r ∈ X, (cutCode (contBins getF provider X g) (getF r)).isSome) :
    ∀ k ∈ (contDeltaRows getF setF predict provider X g).map Prod.fst,
      contAnchorKey getF provider X g < k := by
  intro k hk
  rcases List.mem_map.mp hk with ⟨p, hp, hpk⟩
  have hk1 : p.1 ∈ contKeys getF provider X g := (List.of_mem_zip hp).1
  rcases List.mem_map.mp hk1 with ⟨r, hr, hrk⟩
  rcases Option.isSome_iff_exists.mp (hcov r hr) with ⟨c, hc⟩
  rcases cutCode_some_bounds hc with ⟨hb1, hb2, hval⟩
  rw [contAnchorKey_eq_headD]
  rw [← hpk, ← hrk, hc, hval]
  exact headD_lt_getD (contBins_pairwise getF provider X g) hb1 hb2

theorem contAgg_keys :
    (contAgg getF setF predict provider X g).map ARow.key
      = npUnique ((contDeltaRows getF setF predict provider X g).map Prod.fst) := by
  rw [contAgg, cumsumC_keys]
  simp only [aggregateC, List.map_map]
  exact List.map_id _ ▸ List.map_congr_left (fun k _ => rfl)

theorem contAgg_pairwise :
    (contAgg getF setF predict provider X g).Pairwise (fun a b => a.key < b.key) := by
  have h := npUnique_pairwise ((contDeltaRows getF setF predict provider X g).map Prod.fst)
  rw [← contAgg_keys getF setF predict provider X g] at h
  exact List.pairwise_map.mp h

/-- Under full coverage the anchor key is fresh, so line 50 appends a new row. -/
theorem contUpserted_eq_append
    (hcov : ∀ r ∈ X, (cutCode (contBins getF provider X g) (getF r)).isSome) :
    contUpserted getF setF predict provider X g
      = contAgg getF setF predict provider X g
          ++ [⟨contAnchorKey getF provider X g, 0, 0⟩] := by
  refine upsertRow_append _ _ _ ?_
  intro r hr
  have hm : r.key ∈ (contAgg getF setF predict provider X g).map ARow.key :=
    List.mem_map_of_mem ARow.key hr
  rw [contAgg_keys getF setF predict provider X g] at hm
  have hgt := contKeys_gt_anchor getF setF predict provider X g hcov r.key
    ((mem_npUnique _ _).mp hm)
  simp [ne_of_gt hgt]

theorem contSorted_eq_anchor_cons
    (hcov : ∀ r ∈ X, (cutCode (contBins getF provider X g) (getF r)).isSome) :
    sortByKey ARow.key (contUpserted getF setF predict provider X g)
      = (⟨contAnchorKey getF provider X g, 0, 0⟩ : ARow)
          :: contAgg getF setF predict provider X g := by
  rw [contUpserted_eq_append getF setF predict provider X g hcov]
  refine sortByKey_append_anchor ARow.key _ _ (contAgg_pairwise getF setF predict provider X g) ?_
  intro y hy
  have hm : y.key ∈ (contAgg getF setF predict provider X g).map ARow.key :=
    List.mem_map_of_mem ARow.key hy
  rw [contAgg_keys getF setF predict provider X g] at hm
  exact contKeys_gt_anchor getF setF predict provider X g hcov y.key ((mem_npUnique _ _).mp hm)

theorem contDeltaRows_length (hlen : ∀ T, (predict T).length = T.length) :
    (contDeltaRows getF setF predict provider X g).length = X.length := by
  have h1 : (contKeys getF provider X g).length = X.length := by simp [contKeys]
  have h2 : (contDeltas getF setF predict provider X g).length = X.length := by
    simp only [contDeltas, List.length_zipWith, hlen]
    simp [contX1, contX2]
  simp [contDeltaRows, h1, h2]

theorem sumSize_contAgg (hlen : ∀ T, (predict T).length = T.length) :
    sumSize (contAgg getF setF predict provider X g) = (X.length : ℚ) := by
  have h1 : sumSize (contAgg getF setF predict provider X g)
      = sumSize (aggregateC (contDeltaRows getF setF predict provider X g)) := by
    simp only [sumSize, contAgg, cumsumC_sizes]
  have h2 : (aggregateC (contDeltaRows getF setF predict provider X g)).map ARow.size
      = (npUnique ((contDeltaRows getF setF predict provider X g).map Prod.fst)).map
          (countVal ((contDeltaRows getF setF predict provider X g).map Prod.fst)) := by
    simp [aggregateC, List.map_map, Function.comp, sizeAt]
  rw [h1]
  show ((aggregateC _).map ARow.size).sum = _
  rw [h2, sum_countVal]
  rw [List.length_map, contDeltaRows_length getF setF predict provider X g hlen]

end ContinuousLemmas

theorem pairSumOut_map (f : ARow → CRowOut)
    (hf : ∀ r, (f r).eff = r.eff ∧ (f r).size = r.size) :
    ∀ l : List ARow, pairSumOut (l.map f) = pairSum l := by
  intro l
  match l with
  | [] => rfl
  | [a] => rfl
  | a :: b :: t =>
    have ih := pairSumOut_map f hf (b :: t)
    have h1 : pairSumOut ((a :: b :: t).map f)
        = ((f a).eff + (f b).eff) / 2 * (f b).size + pairSumOut ((b :: t).map f) := rfl
    rw [h1, ih, (hf a).1, (hf b).1, (hf b).2]
    rfl

theorem sumSizeOut_map (f : ARow → CRowOut)
    (hf : ∀ r, (f r).eff = r.eff ∧ (f r).size = r.size) (l : List ARow) :
    sumSizeOut (l.map f) = sumSize l := by
  induction l with
  | nil => rfl
  | cons r rs ih =>
    simp only [sumSizeOut, sumSize, List.map_cons, List.sum_cons] at ih ⊢
    rw [ih, (hf r).2]

section ContinuousClaims

variable {α : Type} (getF : α → ℚ) (setF : ℚ → α → α)
variable (predict : List α → List ℚ) (provider : List ℚ → List ℚ → List ℚ)
variable (X : List α) (g : ℕ)

/-- Core computation for the continuous centering invariant: the returned rows
have a vanishing pair-sum and total size `|X|`. -/
theorem contRows_pairSum_zero
    (hne : X ≠ [])
    (hcov : ∀ r ∈ X, (cutCode (contBins getF provider X g) (getF r)).isSome)
    (hlen : ∀ T, (predict T).length = T.length)
    (includeCI : Bool) (CIprov : List ℚ → ℚ → ℚ) (C : ℚ) :
    pairSumOut (contRows getF setF predict provider X g includeCI CIprov C) = 0
      ∧ sumSizeOut (contRows getF setF predict provider X g includeCI CIprov C)
          = (X.length : ℚ) := by
  set A := contAgg getF setF predict provider X g with hA
  set m : ARow := ⟨contAnchorKey getF provider X g, 0, 0⟩ with hm
  set mm := contMeanMvAvg getF setF predict provider X g with hmm
  have hS : sumSize A = (X.length : ℚ) := sumSize_contAgg getF setF predict provider X g hlen
  have hSpos : (0 : ℚ) < (X.length : ℚ) := by
    have : 0 < X.length := List.length_pos.mpr hne
    exact_mod_cast this
  have hups : contUpserted getF setF predict provider X g = A ++ [m] :=
    contUpserted_eq_append getF setF predict provider X g hcov
  have hsort : sortByKey ARow.key (contUpserted getF setF predict provider X g) = m :: A :=
    contSorted_eq_anchor_cons getF setF predict provider X g hcov
  have hmmval : mm = mvSum 0 A / sumSize A := by
    rw [hmm, contMeanMvAvg, hups, mvSum_append_zero_size m rfl, sumSize_append]
    simp [sumSize]
  have hcent : contCentered getF setF predict provider X g
      = (m :: A).map (fun r => ⟨r.key, r.size, r.eff - mm⟩) := by
    rw [contCentered, hsort]
  have hf : ∀ r : ARow,
      ((fun r : ARow =>
        if includeCI then
          (⟨r.key, r.size, r.eff,
            (lookupKey (ciAggRows (contDeltaRows getF setF predict provider X g) CIprov C)
              r.key).map (fun h => r.eff - h),
            (lookupKey (ciAggRows (contDeltaRows getF setF predict provider X g) CIprov C)
              r.key).map (fun h => r.eff + h)⟩ : CRowOut)
        else ⟨r.key, r.size, r.eff, none, none⟩) r).eff = r.eff ∧
      ((fun r : ARow =>
        if includeCI then
          (⟨r.key, r.size, r.eff,
            (lookupKey (ciAggRows (contDeltaRows getF setF predict provider X g) CIprov C)
              r.key).map (fun h => r.eff - h),
            (lookupKey (ciAggRows (contDeltaRows getF setF predict provider X g) CIprov C)
              r.key).map (fun h => r.eff + h)⟩ : CRowOut)
        else ⟨r.key, r.size, r.eff, none, none⟩) r).size = r.size := by
    intro r
    cases includeCI <;> simp
  have hrows : contRows getF setF predict provider X g includeCI CIprov C
      = (contCentered getF setF predict provider X g).map _ := rfl
  constructor
  · rw [hrows, pairSumOut_map _ hf, hcent, pairSum_center,
      pairSum_cons_eq_mvSum]
    have hm0 : m.eff = 0 := rfl
    rw [hm0]
    have htail : sumSize (m :: A).tail = sumSize A := rfl
    rw [htail, hmmval, hS]
    rw [div_mul_cancel₀ _ (ne_of_gt hSpos)]
    ring
  · rw [hrows, sumSizeOut_map _ hf, hcent, sumSize_map_center, sumSize_cons]
    have : m.size = 0 := rfl
    rw [this, hS, zero_add]

end ContinuousClaims

/-! ### Structural lemmas about the discrete pipeline -/

theorem upsertRow_keys_nodup {ρ κ : Type} [DecidableEq κ] (key : ρ → κ) (hit : ρ → Bool)
    (z : ρ) (rows : List ρ) (hhit : ∀ r, hit r = true ↔ key r = key z)
    (hnd : (rows.map key).Nodup) : ((upsertRow hit z rows).map key).Nodup := by
  by_cases hany : rows.any hit
  · have hmap : (rows.map (fun r => if hit r then z else r)).map key = rows.map key := by
      rw [List.map_map]
      refine List.map_congr_left ?_
      intro r _
      by_cases h : hit r
      · have := (hhit r).mp h
        simp [h, this]
      · simp [h]
    simp only [upsertRow, if_pos hany]
    rw [hmap]
    exact hnd
  · have hfresh : key z ∉ rows.map key := by
      intro hmem
      rcases List.mem_map.mp hmem with ⟨r, hr, hrk⟩
      have hrt : hit r = true := (hhit r).mpr hrk
      exact hany (List.any_eq_true.mpr ⟨r, hr, hrt⟩)
    simp only [upsertRow, if_neg hany, List.map_append, List.map_cons, List.map_nil]
    rw [List.nodup_append]
    exact ⟨hnd, List.nodup_singleton _, by simpa using fun h => hfresh h⟩

theorem cumsumD_keys (a : ℚ) (rows : List DRow) :
    (cumsumD a rows).map DRow.key = rows.map DRow.key := by
  induction rows generalizing a with
  | nil => rfl
  | cons r rs ih => simp [cumsumD, ih]

theorem aggregateD_keys (dr : List (ℤ × ℚ)) :
    (aggregateD dr).map DRow.key = npUnique (dr.map Prod.fst) := by
  simp only [aggregateD, List.map_map]
  exact List.map_id _ ▸ List.map_congr_left (fun k _ => rfl)

theorem zip_filter_map_fst {α : Type} (mask : α → Bool) :
    ∀ (X : List α) (ys : List ℚ), X.length = ys.length →
      ((X.zip ys).filter (fun p => mask p.1)).map Prod.fst = X.filter mask := by
  intro X
  induction X with
  | nil => intro ys _; simp
  | cons x xs ih =>
    intro ys h
    cases ys with
    | nil => simp at h
    | cons y yt =>
      have iht := ih yt (by simpa using h)
      by_cases hx : mask x
      · simp [List.filter_cons, hx, iht]
      · simp [List.filter_cons, hx, iht]

theorem maskedVals_length {α : Type} (mask : α → Bool) (X : List α) (ys : List ℚ)
    (h : X.length = ys.length) :
    (maskedVals X ys mask).length = (X.filter mask).length := by
  have := zip_filter_map_fst mask X ys h
  calc (maskedVals X ys mask).length
      = (((X.zip ys).filter (fun p => mask p.1)).map Prod.fst).length := by
        simp [maskedVals]
    _ = (X.filter mask).length := by rw [this]

theorem zip_filter_map_fst_rows {α : Type} (mask : α → Bool) :
    ∀ (X Y : List α), X.length = Y.length →
      ((X.zip Y).filter (fun p => mask p.1)).map Prod.fst = X.filter mask := by
  intro X
  induction X with
  | nil => intro Y _; simp
  | cons x xs ih =>
    intro Y h
    cases Y with
    | nil => simp at h
    | cons y yt =>
      have iht := ih yt (by simpa using h)
      by_cases hx : mask x
      · simp [List.filter_cons, hx, iht]
      · simp [List.filter_cons, hx, iht]

theorem maskedSel_length {α : Type} (mask : α → Bool) (X Y : List α)
    (h : X.length = Y.length) :
    (maskedSel X Y mask).length = (X.filter mask).length := by
  have := zip_filter_map_fst_rows mask X Y h
  calc (maskedSel X Y mask).length
      = (((X.zip Y).filter (fun p => mask p.1)).map Prod.fst).length := by
        simp [maskedSel]
    _ = (X.filter mask).length := by rw [this]

/-- The keys `1..K-1`: the levels reachable as transition targets. -/
def tailRangeZ (K : ℕ) : List ℤ := (rangeZ (K - 1)).map (· + 1)

theorem rangeZ_eq_cons (K : ℕ) (h : 1 ≤ K) : rangeZ K = 0 :: tailRangeZ K := by
  rcases Nat.exists_eq_add_of_le h with ⟨m, rfl⟩
  rw [Nat.add_comm 1 m, rangeZ_succ_cons m]
  rfl

theorem mem_tailRangeZ (K : ℕ) (k : ℤ) : k ∈ tailRangeZ K ↔ 1 ≤ k ∧ k < (K - 1 : ℕ) + 1 := by
  simp only [tailRangeZ, List.mem_map]
  constructor
  · rintro ⟨v, hv, rfl⟩
    rcases (mem_rangeZ _ v).mp hv with ⟨h0, hlt⟩
    omega
  · rintro ⟨h1, hk⟩
    exact ⟨k - 1, (mem_rangeZ _ _).mpr (by omega), by ring⟩

theorem tailRangeZ_pairwise (K : ℕ) : (tailRangeZ K).Pairwise (· < ·) := by
  refine List.pairwise_map.mpr ?_
  exact (rangeZ_pairwise (K - 1)).imp (fun h => by omega)

theorem sum_map_div {κ : Type} (ks : List κ) (f : κ → ℚ) (c : ℚ) :
    (ks.map (fun v => f v / c)).sum = (ks.map f).sum / c := by
  induction ks with
  | nil => simp
  | cons k kt ih => simp [ih, add_div]

section DiscreteLemmas

variable {α : Type} (getZ : α → ℤ) (setZ : ℤ → α → α) (predictZ : List α → List ℚ)
variable (X : List α) (K : ℕ)

theorem discVals_mem_iff (hg : discGroups getZ X = rangeZ K) (v : ℤ) :
    v ∈ discVals getZ X ↔ 0 ≤ v ∧ v < K := by
  rw [← mem_npUnique v (discVals getZ X)]
  rw [show npUnique (discVals getZ X) = discGroups getZ X from rfl, hg, mem_rangeZ]

theorem discX_ne_nil (hg : discGroups getZ X = rangeZ K) (hK : 2 ≤ K) : X ≠ [] := by
  intro h
  have h0 : (0 : ℤ) ∈ discVals getZ X :=
    (discVals_mem_iff getZ X K hg 0).mpr ⟨le_refl 0, by exact_mod_cast hK.trans_lt' (by norm_num)⟩
  rw [h] at h0
  simp [discVals] at h0

theorem maskPlus_char (hg : discGroups getZ X = rangeZ K) (hK : 2 ≤ K) (r : α) :
    maskPlus getZ X r = decide (getZ r < (K : ℤ) - 1) := by
  rw [maskPlus, hg, rangeZ_getLast K (by omega)]

theorem maskNeg_char (hg : discGroups getZ X = rangeZ K) (hK : 2 ≤ K) (r : α) :
    maskNeg getZ X r = decide (0 < getZ r) := by
  rw [maskNeg, hg, rangeZ_head K (by omega)]

theorem discXPlus_eq (hg : discGroups getZ X = rangeZ K) (hK : 2 ≤ K) :
    discXPlus getZ setZ X
      = some (X.map (fun r => if getZ r < (K : ℤ) - 1 then setZ (getZ r + 1) r else r)) := by
  refine mapM_option_eq_map _ _ X ?_
  intro r hr
  rcases (discVals_mem_iff getZ X K hg (getZ r)).mp
    (List.mem_map_of_mem getZ hr) with ⟨h0, hKv⟩
  by_cases hv : getZ r < (K : ℤ) - 1
  · have hmask : maskPlus getZ X r = true := by
      rw [maskPlus_char getZ X K hg hK]
      simpa using hv
    have hpg : pyGet (discGroups getZ X) (getZ r + 1) = some (getZ r + 1) := by
      rw [hg]
      exact pyGet_rangeZ K (getZ r + 1) (by omega) (by omega)
    simp [hmask, hpg, hv]
  · have hmask : maskPlus getZ X r = false := by
      rw [maskPlus_char getZ X K hg hK]
      simpa using hv
    simp [hmask, hv]

theorem discXNeg_eq (hg : discGroups getZ X = rangeZ K) (hK : 2 ≤ K) :
    discXNeg getZ setZ X
      = some (X.map (fun r => if 0 < getZ r then setZ (getZ r - 1) r else r)) := by
  refine mapM_option_eq_map _ _ X ?_
  intro r hr
  rcases (discVals_mem_iff getZ X K hg (getZ r)).mp
    (List.mem_map_of_mem getZ hr) with ⟨h0, hKv⟩
  by_cases hv : 0 < getZ r
  · have hmask : maskNeg getZ X r = true := by
      rw [maskNeg_char getZ X K hg hK]
      simpa using hv
    have hpg : pyGet (discGroups getZ X) (getZ r - 1) = some (getZ r - 1) := by
      rw [hg]
      exact pyGet_rangeZ K (getZ r - 1) (by omega) (by omega)
    simp [hmask, hpg, hv]
  · have hmask : maskNeg getZ X r = false := by
      rw [maskNeg_char getZ X K hg hK]
      simpa using hv
    simp [hmask, hv]

theorem mem_discKeysPlus (hg : discGroups getZ X = rangeZ K) (hK : 2 ≤ K) (k : ℤ) :
    k ∈ discKeysPlus getZ X ↔ 1 ≤ k ∧ k < K := by
  simp only [discKeysPlus, List.mem_map, List.mem_filter]
  constructor
  · rintro ⟨r, ⟨hr, hmask⟩, rfl⟩
    rcases (discVals_mem_iff getZ X K hg (getZ r)).mp (List.mem_map_of_mem getZ hr) with ⟨h0, _⟩
    rw [maskPlus_char getZ X K hg hK] at hmask
    have : getZ r < (K : ℤ) - 1 := by simpa using hmask
    omega
  · rintro ⟨h1, hk⟩
    have hvm : (k - 1) ∈ discVals getZ X :=
      (discVals_mem_iff getZ X K hg (k - 1)).mpr ⟨by omega, by omega⟩
    rcases List.mem_map.mp hvm with ⟨r, hr, hrv⟩
    refine ⟨r, ⟨hr, ?_⟩, by omega⟩
    rw [maskPlus_char getZ X K hg hK]
    simp only [decide_eq_true_eq]
    omega

theorem mem_discKeysNeg (hg : discGroups getZ X = rangeZ K) (hK : 2 ≤ K) (k : ℤ) :
    k ∈ discKeysNeg getZ X ↔ 1 ≤ k ∧ k < K := by
  simp only [discKeysNeg, List.mem_map, List.mem_filter]
  constructor
  · rintro ⟨r, ⟨hr, hmask⟩, rfl⟩
    rcases (discVals_mem_iff getZ X K hg (getZ r)).mp (List.mem_map_of_mem getZ hr) with ⟨_, hKv⟩
    rw [maskNeg_char getZ X K hg hK] at hmask
    have : 0 < getZ r := by simpa using hmask
    omega
  · rintro ⟨h1, hk⟩
    have hvm : k ∈ discVals getZ X :=
      (discVals_mem_iff getZ X K hg k).mpr ⟨by omega, hk⟩
    rcases List.mem_map.mp hvm with ⟨r, hr, hrv⟩
    refine ⟨r, ⟨hr, ?_⟩, hrv⟩
    rw [maskNeg_char getZ X K hg hK]
    simp only [decide_eq_true_eq]
    omega

theorem discDeltaPlus_length (XP : List α)
    (hlen : ∀ T, (predictZ T).length = T.length) (hXP : XP.length = X.length) :
    (discDeltaPlus getZ predictZ X XP).length = (X.filter (maskPlus getZ X)).length := by
  rw [discDeltaPlus, List.length_zipWith, hlen,
    maskedSel_length (maskPlus getZ X) X XP hXP.symm,
    maskedVals_length (maskPlus getZ X) X (predictZ X) (hlen X).symm]
  exact Nat.min_self _

theorem discDeltaNeg_length (XN : List α)
    (hlen : ∀ T, (predictZ T).length = T.length) (hXN : XN.length = X.length) :
    (discDeltaNeg getZ predictZ X XN).length = (X.filter (maskNeg getZ X)).length := by
  rw [discDeltaNeg, List.length_zipWith, hlen,
    maskedSel_length (maskNeg getZ X) X XN hXN.symm,
    maskedVals_length (maskNeg getZ X) X (predictZ X) (hlen X).symm]
  exact Nat.min_self _

theorem discDeltaRows_map_fst (XP XN : List α)
    (hlen : ∀ T, (predictZ T).length = T.length)
    (hXP : XP.length = X.length) (hXN : XN.length = X.length) :
    (discDeltaRows getZ predictZ X XP XN).map Prod.fst
      = discKeysPlus getZ X ++ discKeysNeg getZ X := by
  rw [discDeltaRows, List.map_append]
  congr 1
  · refine List.map_fst_zip _ _ ?_
    rw [discDeltaPlus_length getZ predictZ X XP hlen hXP]
    simp [discKeysPlus]
  · refine List.map_fst_zip _ _ ?_
    rw [discDeltaNeg_length getZ predictZ X XN hlen hXN]
    simp [discKeysNeg]

theorem discKeys_npUnique (XP XN : List α)
    (hg : discGroups getZ X = rangeZ K) (hK : 2 ≤ K)
    (hlen : ∀ T, (predictZ T).length = T.length)
    (hXP : XP.length = X.length) (hXN : XN.length = X.length) :
    npUnique ((discDeltaRows getZ predictZ X XP XN).map Prod.fst) = tailRangeZ K := by
  refine sorted_lt_ext _ _ (npUnique_pairwise _) (tailRangeZ_pairwise K) ?_
  intro a
  rw [mem_npUnique, discDeltaRows_map_fst getZ predictZ X XP XN hlen hXP hXN,
    List.mem_append, mem_discKeysPlus getZ X K hg hK, mem_discKeysNeg getZ X K hg hK,
    mem_tailRangeZ]
  constructor
  · rintro (⟨h1, h2⟩ | ⟨h1, h2⟩) <;> exact ⟨h1, by omega⟩
  · rintro ⟨h1, h2⟩
    exact Or.inl ⟨h1, by omega⟩

theorem discPre_eq (XP XN : List α)
    (hg : discGroups getZ X = rangeZ K) (hK : 2 ≤ K)
    (hlen : ∀ T, (predictZ T).length = T.length)
    (hXP : XP.length = X.length) (hXN : XN.length = X.length) :
    discPre getZ predictZ X XP XN
      = (⟨0, 0, 0⟩ : DRow)
          :: cumsumD 0 (aggregateD (discDeltaRows getZ predictZ X XP XN)) := by
  set rows := cumsumD 0 (aggregateD (discDeltaRows getZ predictZ X XP XN)) with hrows
  have hkeys : rows.map DRow.key = tailRangeZ K := by
    rw [hrows, cumsumD_keys, aggregateD_keys,
      discKeys_npUnique getZ predictZ X K XP XN hg hK hlen hXP hXN]
  have hpos : ∀ r ∈ rows, 1 ≤ r.key := by
    intro r hr
    have : r.key ∈ tailRangeZ K := hkeys ▸ List.mem_map_of_mem DRow.key hr
    exact ((mem_tailRangeZ K r.key).mp this).1
  have hup : upsertRow (fun r => decide (r.key = 0)) ⟨0, 0, 0⟩ rows = rows ++ [⟨0, 0, 0⟩] := by
    refine upsertRow_append _ _ _ ?_
    intro r hr
    have := hpos r hr
    simp only [decide_eq_false_iff_not]
    omega
  have hpw : rows.Pairwise (fun a b => a.key < b.key) := by
    have := hkeys ▸ tailRangeZ_pairwise K
    exact List.pairwise_map.mp this
  rw [discPre, hup]
  exact sortByKey_append_anchor DRow.key _ rows hpw (fun y hy => by
    have := hpos y hy
    show (⟨0, 0, 0⟩ : DRow).key < y.key
    simpa using by omega)

theorem discPre_keys (XP XN : List α)
    (hg : discGroups getZ X = rangeZ K) (hK : 2 ≤ K)
    (hlen : ∀ T, (predictZ T).length = T.length)
    (hXP : XP.length = X.length) (hXN : XN.length = X.length) :
    (discPre getZ predictZ X XP XN).map DRow.key = rangeZ K := by
  rw [discPre_eq getZ predictZ X K XP XN hg hK hlen hXP hXN, List.map_cons,
    cumsumD_keys, aggregateD_keys,
    discKeys_npUnique getZ predictZ X K XP XN hg hK hlen hXP hXN]
  exact (rangeZ_eq_cons K (by omega)).symm

theorem discProps_map_fst : (discProps getZ X).map Prod.fst = discGroups getZ X := by
  simp only [discProps, List.map_map]
  exact List.map_id _ ▸ List.map_congr_left (fun k _ => rfl)

theorem discProps_sum (hg : discGroups getZ X = rangeZ K) (hK : 2 ≤ K) :
    ((discProps getZ X).map Prod.snd).sum = 1 := by
  have hXne : X ≠ [] := discX_ne_nil getZ X K hg hK
  have hn : (0 : ℚ) < (X.length : ℚ) := by
    have : 0 < X.length := List.length_pos.mpr hXne
    exact_mod_cast this
  have h1 : (discProps getZ X).map Prod.snd
      = (discGroups getZ X).map (fun v => countVal (discVals getZ X) v / (X.length : ℚ)) := by
    simp [discProps, List.map_map, Function.comp]
  rw [h1, sum_map_div, show discGroups getZ X = npUnique (discVals getZ X) from rfl,
    sum_countVal]
  have hlen : (discVals getZ X).length = X.length := by simp [discVals]
  rw [hlen, div_self (ne_of_gt hn)]

/-- Line 126's centering succeeds (NaN-free) for code-valued levels: the result
index and the proportion index coincide. -/
theorem discCenter_some (XP XN : List α)
    (hg : discGroups getZ X = rangeZ K) (hK : 2 ≤ K)
    (hlen : ∀ T, (predictZ T).length = T.length)
    (hXP : XP.length = X.length) (hXN : XN.length = X.length) :
    discCenter getZ predictZ X XP XN
      = some (dotQ ((discPre getZ predictZ X XP XN).map DRow.eff)
          ((discProps getZ X).map Prod.snd)) := by
  have hkeq : ((discPre getZ predictZ X XP XN).map (fun r => (r.key, r.eff))).map Prod.fst
      = (discProps getZ X).map Prod.fst := by
    rw [discProps_map_fst, hg, List.map_map]
    have : (discPre getZ predictZ X XP XN).map (Prod.fst ∘ fun r => (r.key, r.eff))
        = (discPre getZ predictZ X XP XN).map DRow.key := List.map_congr_left (fun r _ => rfl)
    rw [this, discPre_keys getZ predictZ X K XP XN hg hK hlen hXP hXN]
  rw [discCenter, seriesMulSum, if_pos hkeq]
  congr 1
  rw [List.map_map]
  congr 1

end DiscreteLemmas

theorem sorted_headD_least {l : List ℚ} {m : ℚ} (hs : l.Pairwise (· < ·)) (hm : m ∈ l)
    (hleast : ∀ q ∈ l, m ≤ q) : l.headD 0 = m := by
  cases l with
  | nil => simp at hm
  | cons b bs =>
    show b = m
    rcases List.mem_cons.mp hm with h | h
    · exact h.symm
    · exact absurd (hleast b (List.mem_cons_self b bs))
        (not_le.mpr (pairwise_lt_head_lt hs m h))

theorem npArange_unit_grid (g : ℕ) (hg : 1 ≤ g) :
    npArange (1 / (g : ℚ)) (1 + 1 / (g : ℚ)) (1 / (g : ℚ))
      = (List.range g).map (fun i : ℕ => 1 / (g : ℚ) + (i : ℚ) * (1 / (g : ℚ))) := by
  have hgQ : ((g : ℚ)) ≠ 0 := Nat.cast_ne_zero.mpr (by omega)
  have hcount : ((1 + 1 / (g : ℚ)) - 1 / (g : ℚ)) / (1 / (g : ℚ)) = (g : ℚ) := by
    field_simp
  rw [npArange, hcount, Int.ceil_natCast, Int.toNat_natCast]

/-- C2: the quantile probability sequence is exactly `0, 1/g, ..., 1`
(`g+1` points), and the bin edges are the provider's values with the true
minimum prepended, deduplicated and sorted strictly increasing; when the
provider's values sit at or above the sample minimum, that minimum is the
first edge. -/
theorem C2_quantile_probs_and_edges {α : Type} (getF : α → ℚ)
    (provider : List ℚ → List ℚ → List ℚ) (X : List α) (g : ℕ) (hg : 1 ≤ g)
    (hup : ∀ q ∈ provider (contSample getF X) (quantilesSeq g),
      pyMin (contSample getF X) ≤ q) :
    quantilesSeq g = (List.range (g + 1)).map (fun i : ℕ => (i : ℚ) / (g : ℚ))
      ∧ (quantilesSeq g).length = g + 1
      ∧ contBins getF provider X g
          = npUnique (pyMin (contSample getF X)
              :: provider (contSample getF X) (quantilesSeq g))
      ∧ (contBins getF provider X g).Pairwise (· < ·)
      ∧ (contBins getF provider X g).headD 0 = pyMin (contSample getF X) := by
  have hgQ : ((g : ℚ)) ≠ 0 := Nat.cast_ne_zero.mpr (by omega)
  have hq : quantilesSeq g = (List.range (g + 1)).map (fun i : ℕ => (i : ℚ) / (g : ℚ)) := by
    rw [quantilesSeq, npArange_unit_grid g hg, List.range_succ_eq_map, List.map_cons,
      List.map_map]
    congr 1
    · rw [Nat.cast_zero, zero_div]
    · refine List.map_congr_left ?_
      intro i _
      show 1 / (g : ℚ) + (i : ℚ) * (1 / (g : ℚ)) = ((i.succ : ℕ) : ℚ) / (g : ℚ)
      push_cast
      field_simp
      ring
  refine ⟨hq, ?_, rfl, contBins_pairwise getF provider X g, ?_⟩
  · rw [hq]
    simp
  · refine sorted_headD_least (contBins_pairwise getF provider X g) ?_ ?_
    · exact (mem_npUnique _ _).mpr (List.mem_cons_self _ _)
    · intro q hq2
      rcases List.mem_cons.mp ((mem_npUnique _ _).mp hq2) with h | h
      · exact le_of_eq h.symm
      · exact hup q h

/-- Witness for C2 at a concrete table, grid size and provider. -/
theorem C2_quantile_probs_and_edges_witness :
    (1 ≤ 2 ∧ ∀ q ∈ (fun (_ : List ℚ) (_ : List ℚ) => [(0 : ℚ), 2, 3])
        (contSample id [(0 : ℚ), 1, 2, 3]) (quantilesSeq 2),
        pyMin (contSample id [(0 : ℚ), 1, 2, 3]) ≤ q)
      ∧ quantilesSeq 2 = (List.range 3).map (fun i : ℕ => (i : ℚ) / (2 : ℚ)) :=
  ⟨⟨by decide, by decide⟩,
    (C2_quantile_probs_and_edges id (fun _ _ => [(0 : ℚ), 2, 3]) [(0 : ℚ), 1, 2, 3] 2
      (by decide) (by decide)).1⟩

/-- C10: the centering constant of lines 52-54, computed in positional order
with the anchor row appended last and a shifted fill value of `0`, equals the
§4.1 step 8 constant read over the rows sorted ascending by key with the
anchor row first; they coincide because the anchor carries `eff = 0` and
`size = 0`. -/
theorem C10_centering_order_refinement {α : Type} (getF : α → ℚ) (setF : ℚ → α → α)
    (predict : List α → List ℚ) (provider : List ℚ → List ℚ → List ℚ)
    (X : List α) (g : ℕ)
    (hcov : ∀ r ∈ X, (cutCode (contBins getF provider X g) (getF r)).isSome) :
    contMeanMvAvg getF setF predict provider X g
      = specCenterConstant
          (sortByKey ARow.key (contUpserted getF setF predict provider X g)) := by
  set A := contAgg getF setF predict provider X g with hA
  set m : ARow := ⟨contAnchorKey getF provider X g, 0, 0⟩ with hm
  have hups : contUpserted getF setF predict provider X g = A ++ [m] :=
    contUpserted_eq_append getF setF predict provider X g hcov
  have hsort : sortByKey ARow.key (contUpserted getF setF predict provider X g) = m :: A :=
    contSorted_eq_anchor_cons getF setF predict provider X g hcov
  rw [contMeanMvAvg, hsort, hups, specCenterConstant]
  rw [mvSum_append_zero_size m rfl, sumSize_append, pairSum_cons_eq_mvSum]
  have hme : m.eff = 0 := rfl
  rw [hme]
  have hsz : sumSize A + sumSize [m] = sumSize (m :: A) := by
    simp only [sumSize, List.map_cons, List.map_nil, List.sum_cons, List.sum_nil]
    ring
  rw [hsz]

/-- Witness for C10 at a concrete table, model, provider and grid size. -/
theorem C10_centering_order_refinement_witness :
    (∀ r ∈ [(0 : ℚ), 1, 2, 3],
      (cutCode (contBins id (fun _ _ => [(0 : ℚ), 2, 3]) [(0 : ℚ), 1, 2, 3] 2) (id r)).isSome)
      ∧ contMeanMvAvg id (fun v _ => v) (fun T => T.map (· * 2))
          (fun _ _ => [(0 : ℚ), 2, 3]) [(0 : ℚ), 1, 2, 3] 2
        = specCenterConstant (sortByKey ARow.key
            (contUpserted id (fun v _ => v) (fun T => T.map (· * 2))
              (fun _ _ => [(0 : ℚ), 2, 3]) [(0 : ℚ), 1, 2, 3] 2)) :=
  ⟨by decide,
    C10_centering_order_refinement id (fun v _ => v) (fun T => T.map (· * 2))
      (fun _ _ => [(0 : ℚ), 2, 3]) [(0 : ℚ), 1, 2, 3] 2 (by decide)⟩

/-- C7: both result tables are sorted strictly ascending by key with no
duplicate keys (continuous: bin-edge keys of the returned rows; discrete:
level keys of the returned rows whenever the estimator returns at all). -/
theorem C7_result_sorted_strict {α β : Type} (getF : α → ℚ) (setF : ℚ → α → α)
    (predict : List α → List ℚ) (provider : List ℚ → List ℚ → List ℚ)
    (X : List α) (g : ℕ) (includeCI : Bool) (CIprov : List ℚ → ℚ → ℚ) (C : ℚ)
    (getZ : β → ℤ) (setZ : ℤ → β → β) (predictZ : List β → List ℚ) (Xd : List β)
    (rows : List DRowOut) (hd : discCompute getZ setZ predictZ Xd = some rows) :
    ((contRows getF setF predict provider X g includeCI CIprov C).map
        CRowOut.key).Pairwise (· < ·)
      ∧ (rows.map DRowOut.key).Pairwise (· < ·) := by
  constructor
  · have hnd : ((contAgg getF setF predict provider X g).map ARow.key).Nodup := by
      rw [contAgg_keys]
      exact (npUnique_pairwise _).imp ne_of_lt
    have hup : ((contUpserted getF setF predict provider X g).map ARow.key).Nodup := by
      refine upsertRow_keys_nodup ARow.key _ _ _ ?_ hnd
      intro r
      simp
    have hsorted := sortByKey_pairwise_lt ARow.key _ hup
    have hcent : (contCentered getF setF predict provider X g).Pairwise
        (fun a b => a.key < b.key) := by
      rw [contCentered]
      refine List.pairwise_map.mpr ?_
      exact hsorted.imp (fun h => h)
    have hout : (contRows getF setF predict provider X g includeCI CIprov C).Pairwise
        (fun a b => a.key < b.key) := by
      rw [contRows]
      refine List.pairwise_map.mpr ?_
      refine hcent.imp ?_
      intro a b h
      cases includeCI <;> simpa using h
    exact List.pairwise_map.mpr hout
  · have hsome : ∃ XP XN, discXPlus getZ setZ Xd = some XP ∧ discXNeg getZ setZ Xd = some XN
        ∧ rows = discRowsFrom getZ predictZ Xd XP XN := by
      rcases hxp : discXPlus getZ setZ Xd with _ | XP
      · rw [discCompute, hxp] at hd
        exact absurd hd (by simp)
      · rcases hxn : discXNeg getZ setZ Xd with _ | XN
        · rw [discCompute, hxp, hxn] at hd
          exact absurd hd (by simp)
        · rw [discCompute, hxp, hxn] at hd
          exact ⟨XP, XN, rfl, rfl, (Option.some_inj.mp hd).symm⟩
    rcases hsome with ⟨XP, XN, _, _, hrows⟩
    subst hrows
    have hnd : ((cumsumD 0 (aggregateD (discDeltaRows getZ predictZ Xd XP XN))).map
        DRow.key).Nodup := by
      rw [cumsumD_keys, aggregateD_keys]
      exact (npUnique_pairwise _).imp ne_of_lt
    have hup : ((upsertRow (fun r => decide (r.key = 0)) ⟨0, 0, 0⟩
        (cumsumD 0 (aggregateD (discDeltaRows getZ predictZ Xd XP XN)))).map
          DRow.key).Nodup := by
      refine upsertRow_keys_nodup DRow.key _ _ _ ?_ hnd
      intro r
      simp
    have hsorted := sortByKey_pairwise_lt DRow.key _ hup
    have hpre : (discPre getZ predictZ Xd XP XN).Pairwise (fun a b => a.key < b.key) :=
      hsorted
    have hout : (discRowsFrom getZ predictZ Xd XP XN).Pairwise
        (fun a b => a.key < b.key) := by
      rw [discRowsFrom]
      refine List.pairwise_map.mpr ?_
      exact hpre.imp (fun h => h)
    exact List.pairwise_map.mpr hout

/-- Witness for C7 at concrete tables for both estimators. -/
theorem C7_result_sorted_strict_witness :
    discCompute id (fun v _ => v) (fun T => T.map (fun _ : ℤ => (0 : ℚ))) [(5 : ℤ), 5]
        = some [⟨0, 0, none⟩]
      ∧ (((contRows id (fun v _ => v) (fun T => T.map (· * 2))
            (fun _ _ => [(0 : ℚ), 2, 3]) [(0 : ℚ), 1, 2, 3] 2 true (fun l _ => (l.length : ℚ))
            (95 / 100)).map CRowOut.key).Pairwise (· < ·)
          ∧ (([⟨0, 0, none⟩] : List DRowOut).map DRowOut.key).Pairwise (· < ·)) :=
  ⟨by decide,
    C7_result_sorted_strict id (fun v _ => v) (fun T => T.map (· * 2))
      (fun _ _ => [(0 : ℚ), 2, 3]) [(0 : ℚ), 1, 2, 3] 2 true (fun l _ => (l.length : ℚ))
      (95 / 100) id (fun v _ => v) (fun T => T.map (fun _ : ℤ => (0 : ℚ))) [(5 : ℤ), 5]
      [⟨0, 0, none⟩] (by decide)⟩

/-- C6: with `include_CI` set and a non-negative half-width provider, every bin
with at least 2 contributing observations gets `lowerCI = eff - halfwidth` and
`upperCI = eff + halfwidth` around the centered `eff`, hence
`lowerCI ≤ eff ≤ upperCI`; the column names carry the confidence level as a
truncated integer percentage. -/
theorem C6_confidence_interval_ordering {α : Type} (getF : α → ℚ) (setF : ℚ → α → α)
    (predict : List α → List ℚ) (provider : List ℚ → List ℚ → List ℚ)
    (X : List α) (g : ℕ) (CIprov : List ℚ → ℚ → ℚ) (C : ℚ)
    (hCI : ∀ l c, 0 ≤ CIprov l c) (hC : 0 ≤ C) :
    lowerCIName C = "lowerCI_" ++ toString ⌊C * 100⌋ ++ "%"
      ∧ upperCIName C = "upperCI_" ++ toString ⌊C * 100⌋ ++ "%"
      ∧ ∀ row ∈ contRows getF setF predict provider X g true CIprov C,
          2 ≤ sizeAt (contDeltaRows getF setF predict provider X g) row.key →
            row.lowerCI = some (row.eff
                - CIprov (valsAt (contDeltaRows getF setF predict provider X g) row.key) C)
              ∧ row.upperCI = some (row.eff
                  + CIprov (valsAt (contDeltaRows getF setF predict provider X g) row.key) C)
              ∧ row.eff
                    - CIprov (valsAt (contDeltaRows getF setF predict provider X g) row.key) C
                  ≤ row.eff
              ∧ row.eff ≤ row.eff
                  + CIprov (valsAt (contDeltaRows getF setF predict provider X g) row.key) C := by
  have hC100 : 0 ≤ C * 100 := by positivity
  refine ⟨?_, ?_, ?_⟩
  · rw [lowerCIName, pyInt, if_pos hC100]
  · rw [upperCIName, pyInt, if_pos hC100]
  · intro row hrow hsize
    rcases List.mem_map.mp hrow with ⟨r, hrmem, hfr⟩
    rw [if_pos rfl] at hfr
    subst hfr
    set dr := contDeltaRows getF setF predict provider X g with hdr
    have hsize2 : (2 : ℚ) ≤ sizeAt dr r.key := hsize
    have hpos : 0 < (dr.map Prod.fst).countP (fun x => decide (x = r.key)) := by
      by_contra hz
      push_neg at hz
      have h0 : (dr.map Prod.fst).countP (fun x => decide (x = r.key)) = 0 := by omega
      have hsz : sizeAt dr r.key = ((0 : ℕ) : ℚ) := by rw [sizeAt, countVal, h0]
      rw [hsz] at hsize2
      norm_num at hsize2
    have hmem : r.key ∈ dr.map Prod.fst := by
      rcases List.countP_pos_iff.mp hpos with ⟨a, ha, hak⟩
      exact (of_decide_eq_true hak) ▸ ha
    have hlook : lookupKey (ciAggRows dr CIprov C) r.key
        = some (CIprov (valsAt dr r.key) C) := by
      rw [ciAggRows, lookupKey_map_self, if_pos ((mem_npUnique _ _).mpr hmem)]
    refine ⟨?_, ?_, ?_, ?_⟩
    · show (lookupKey (ciAggRows dr CIprov C) r.key).map (fun h => r.eff - h) = _
      rw [hlook]
      rfl
    · show (lookupKey (ciAggRows dr CIprov C) r.key).map (fun h => r.eff + h) = _
      rw [hlook]
      rfl
    · exact sub_le_self _ (hCI _ _)
    · exact le_add_of_nonneg_right (hCI _ _)

/-- Witness for C6 at a concrete table, model, provider, CI provider and level. -/
theorem C6_confidence_interval_ordering_witness :
    ((∀ l : List ℚ, ∀ c : ℚ, 0 ≤ (fun (_ : List ℚ) (_ : ℚ) => (0 : ℚ)) l c)
        ∧ (0 : ℚ) ≤ 95 / 100)
      ∧ lowerCIName (95 / 100) = "lowerCI_" ++ toString ⌊(95 / 100 : ℚ) * 100⌋ ++ "%" :=
  ⟨⟨fun _ _ => le_refl 0, by norm_num⟩,
    (C6_confidence_interval_ordering id (fun v _ => v) (fun T => T.map (· * 2))
      (fun _ _ => [(0 : ℚ), 2, 3]) [(0 : ℚ), 1, 2, 3] 2 (fun _ _ => 0) (95 / 100)
      (fun _ _ => le_refl 0) (by norm_num)).1⟩

/-- C4 (failing input): on a constant continuous feature the edge sequence
collapses to a single edge, yet the code raises nothing: both model predictions
are still issued (on tables whose feature column was rewritten to the single
edge), and a single-row table is returned whose `size` was zeroed by line 50 —
so the line 52-54 centering divides by a zero total size (NaN in Python).
Holds for every model of the right output length; the provider value is the
one any quantile function returns on the constant sample. -/
theorem C4_degenerate_grid_no_error (predict : List ℚ → List ℚ)
    (CIprov : List ℚ → ℚ → ℚ) (C : ℚ)
    (hlen : ∀ T, (predict T).length = T.length) :
    contBins id (fun _ _ => [(5 : ℚ), 5, 5]) [(5 : ℚ), 5, 5] 2 = [5]
      ∧ contPredictTrace id (fun v _ => v) (fun _ _ => [(5 : ℚ), 5, 5]) [(5 : ℚ), 5, 5] 2
          = [[5, 5, 5], [5, 5, 5]]
      ∧ contUpserted id (fun v _ => v) predict (fun _ _ => [(5 : ℚ), 5, 5]) [(5 : ℚ), 5, 5] 2
          = [⟨5, 0, 0⟩]
      ∧ sumSize (contUpserted id (fun v _ => v) predict (fun _ _ => [(5 : ℚ), 5, 5])
          [(5 : ℚ), 5, 5] 2) = 0
      ∧ (contRows id (fun v _ => v) predict (fun _ _ => [(5 : ℚ), 5, 5]) [(5 : ℚ), 5, 5] 2
          true CIprov C).map CRowOut.key = [5] := by
  have hbins : contBins id (fun _ _ => [(5 : ℚ), 5, 5]) [(5 : ℚ), 5, 5] 2 = [5] := by decide
  have htrace : contPredictTrace id (fun v _ => v) (fun _ _ => [(5 : ℚ), 5, 5])
      [(5 : ℚ), 5, 5] 2 = [[5, 5, 5], [5, 5, 5]] := by decide
  have hkeys : contKeys id (fun _ _ => [(5 : ℚ), 5, 5]) [(5 : ℚ), 5, 5] 2 = [5, 5, 5] := by
    decide
  have hdlen : (contDeltas id (fun v _ => v) predict (fun _ _ => [(5 : ℚ), 5, 5])
      [(5 : ℚ), 5, 5] 2).length = 3 := by
    rw [contDeltas, List.length_zipWith, hlen, hlen]
    simp [contX1, contX2]
  have hfst : (contDeltaRows id (fun v _ => v) predict (fun _ _ => [(5 : ℚ), 5, 5])
      [(5 : ℚ), 5, 5] 2).map Prod.fst = [5, 5, 5] := by
    rw [contDeltaRows]
    rw [List.map_fst_zip _ _ (by rw [hkeys, hdlen]; decide)]
    exact hkeys
  have hnp : npUnique ((contDeltaRows id (fun v _ => v) predict (fun _ _ => [(5 : ℚ), 5, 5])
      [(5 : ℚ), 5, 5] 2).map Prod.fst) = [5] := by
    rw [hfst]
    decide
  set dr := contDeltaRows id (fun v _ => v) predict (fun _ _ => [(5 : ℚ), 5, 5])
    [(5 : ℚ), 5, 5] 2 with hdr
  have hagg : aggregateC dr = [⟨5, sizeAt dr 5, meanAt dr 5⟩] := by
    rw [aggregateC, hnp]
    rfl
  have hanchor : contAnchorKey id (fun _ _ => [(5 : ℚ), 5, 5]) [(5 : ℚ), 5, 5] 2 = 5 := by
    decide
  have hupsert : contUpserted id (fun v _ => v) predict (fun _ _ => [(5 : ℚ), 5, 5])
      [(5 : ℚ), 5, 5] 2 = [⟨5, 0, 0⟩] := by
    rw [contUpserted, contAgg, ← hdr, hagg, hanchor]
    have hcs : cumsumC 0 [(⟨5, sizeAt dr 5, meanAt dr 5⟩ : ARow)]
        = [⟨5, sizeAt dr 5, 0 + meanAt dr 5⟩] := rfl
    rw [hcs, upsertRow]
    have hany : ([(⟨5, sizeAt dr 5, 0 + meanAt dr 5⟩ : ARow)]).any
        (fun r => decide (r.key = 5)) = true := by
      simp
    rw [if_pos hany]
    simp
  refine ⟨hbins, htrace, hupsert, ?_, ?_⟩
  · rw [hupsert]
    simp [sumSize]
  · rw [contRows, contCentered, hupsert]
    have hsort1 : sortByKey ARow.key [(⟨5, 0, 0⟩ : ARow)] = [⟨5, 0, 0⟩] := rfl
    rw [hsort1]
    simp

/-- Witness for C4: a concrete length-preserving model. -/
theorem C4_degenerate_grid_no_error_witness :
    (∀ T : List ℚ, ((fun T : List ℚ => T.map (fun _ => (1 : ℚ))) T).length = T.length)
      ∧ contBins id (fun _ _ => [(5 : ℚ), 5, 5]) [(5 : ℚ), 5, 5] 2 = [5] :=
  ⟨fun T => by simp,
    (C4_degenerate_grid_no_error (fun T => T.map (fun _ => (1 : ℚ))) (fun _ _ => 0) (95 / 100)
      (fun T => by simp)).1⟩

/-- C5 (failing input): a discrete feature with one distinct value raises
nothing: the full prediction is issued (plus two empty-subset predictions), and
a single-row table is returned whose `eff` is NaN (`none`) because line 126's
index alignment fails. -/
theorem C5_single_level_no_error :
    discCompute id (fun v _ => v) (fun T => T.map (fun _ : ℤ => (0 : ℚ))) [(5 : ℤ), 5]
        = some [⟨0, 0, none⟩]
      ∧ discPredictTrace id (fun v _ => v) [(5 : ℤ), 5] = some [[5, 5], [], []] := by
  decide

theorem sorted_head_least {l : List ℤ} {m : ℤ} (hs : l.Pairwise (· < ·)) (hm : m ∈ l)
    (hleast : ∀ q ∈ l, m ≤ q) : l.head? = some m := by
  cases l with
  | nil => simp at hm
  | cons b bs =>
    simp only [List.head?_cons, Option.some_inj]
    rcases List.mem_cons.mp hm with h | h
    · exact h.symm
    · exact absurd (hleast b (List.mem_cons_self b bs))
        (not_le.mpr (pairwise_lt_head_lt hs m h))

theorem sorted_getLast_greatest :
    ∀ (l : List ℤ) (m : ℤ), l.Pairwise (· < ·) → m ∈ l → (∀ q ∈ l, q ≤ m) →
      l.getLast? = some m := by
  intro l
  induction l with
  | nil => intro m _ hm _; simp at hm
  | cons b bs ih =>
    intro m hs hm hgr
    cases bs with
    | nil =>
      rcases List.mem_cons.mp hm with h | h
      · rw [h]
        rfl
      · simp at h
    | cons c cs =>
      have hmtail : m ∈ c :: cs := by
        rcases List.mem_cons.mp hm with h | h
        · exfalso
          have hc : c ≤ m := hgr c (List.mem_cons_of_mem b (List.mem_cons_self c cs))
          have hbc : b < c := pairwise_lt_head_lt hs c (List.mem_cons_self c cs)
          omega
        · exact h
      rw [List.getLast?_cons_cons]
      exact ih m (List.pairwise_cons.mp hs).2 hmtail
        (fun q hq => hgr q (List.mem_cons_of_mem b hq))

theorem specNextHigher_rangeZ (K : ℕ) (v : ℤ) (h0 : 0 ≤ v) (hv : v < (K : ℤ) - 1) :
    specNextHigher (rangeZ K) v = some (v + 1) := by
  rw [specNextHigher]
  refine sorted_head_least ((rangeZ_pairwise K).filter _) ?_ ?_
  · rw [List.mem_filter]
    refine ⟨(mem_rangeZ K _).mpr ⟨by omega, by omega⟩, ?_⟩
    simp only [decide_eq_true_eq]
    omega
  · intro q hq
    rcases List.mem_filter.mp hq with ⟨_, hq2⟩
    have : v < q := of_decide_eq_true hq2
    omega

theorem specNextLower_rangeZ (K : ℕ) (v : ℤ) (h0 : 0 < v) (hv : v < (K : ℤ)) :
    specNextLower (rangeZ K) v = some (v - 1) := by
  rw [specNextLower]
  refine sorted_getLast_greatest _ (v - 1) ((rangeZ_pairwise K).filter _) ?_ ?_
  · rw [List.mem_filter]
    refine ⟨(mem_rangeZ K _).mpr ⟨by omega, by omega⟩, ?_⟩
    simp only [decide_eq_true_eq]
    omega
  · intro q hq
    rcases List.mem_filter.mp hq with ⟨_, hq2⟩
    have : q < v := of_decide_eq_true hq2
    omega

/-- C3 counterexample: with levels `{0, 2}` (two distinct sorted levels), the
row with value `2` is not at the minimum level, the next-lower level is `0`,
yet `X_neg` keeps its feature at `2`: line 106 indexes `groups` by the feature
value, not by its rank. -/
theorem C3_next_level_counterexample :
    discGroups id [(0 : ℤ), 2] = [0, 2]
      ∧ specNextLower (discGroups id [(0 : ℤ), 2]) 2 = some 0
      ∧ maskNeg id [(0 : ℤ), 2] 2 = true
      ∧ discXNeg id (fun v _ => v) [(0 : ℤ), 2] = some [0, 2]
      ∧ (2 : ℤ) ≠ 0 := by
  decide

/-- C3 amended: when the feature values are exactly the codes `0..K-1`
(`K ≥ 2`), each non-maximum row appears in `X_plus` with the feature replaced
by the next-higher level, each non-minimum row appears in `X_neg` with the
feature replaced by the next-lower level, and the delta keys are `value + 1`
(forward) and the row's own value (backward). -/
theorem C3_neighbor_substitution_coded {α : Type} (getZ : α → ℤ) (setZ : ℤ → α → α)
    (predictZ : List α → List ℚ) (X : List α) (K : ℕ)
    (hg : discGroups getZ X = rangeZ K) (hK : 2 ≤ K)
    (hlen : ∀ T, (predictZ T).length = T.length) :
    discXPlus getZ setZ X
        = some (X.map (fun r => if getZ r < (K : ℤ) - 1 then setZ (getZ r + 1) r else r))
      ∧ discXNeg getZ setZ X
        = some (X.map (fun r => if 0 < getZ r then setZ (getZ r - 1) r else r))
      ∧ (∀ v : ℤ, 0 ≤ v → v < (K : ℤ) - 1 →
          specNextHigher (discGroups getZ X) v = some (v + 1))
      ∧ (∀ v : ℤ, 0 < v → v < (K : ℤ) →
          specNextLower (discGroups getZ X) v = some (v - 1))
      ∧ (∀ r : α, maskPlus getZ X r = decide (getZ r < (K : ℤ) - 1))
      ∧ (∀ r : α, maskNeg getZ X r = decide (0 < getZ r))
      ∧ ∀ XP XN : List α, XP.length = X.length → XN.length = X.length →
          (discDeltaRows getZ predictZ X XP XN).map Prod.fst
            = (X.filter (maskPlus getZ X)).map (fun r => getZ r + 1)
              ++ (X.filter (maskNeg getZ X)).map getZ := by
  refine ⟨discXPlus_eq getZ setZ X K hg hK, discXNeg_eq getZ setZ X K hg hK, ?_, ?_, ?_, ?_, ?_⟩
  · intro v h0 hv
    rw [hg]
    exact specNextHigher_rangeZ K v h0 hv
  · intro v h0 hv
    rw [hg]
    exact specNextLower_rangeZ K v h0 hv
  · exact maskPlus_char getZ X K hg hK
  · exact maskNeg_char getZ X K hg hK
  · intro XP XN hXP hXN
    exact discDeltaRows_map_fst getZ predictZ X XP XN hlen hXP hXN

/-- Witness for the amended C3 at a concrete coded table. -/
theorem C3_neighbor_substitution_coded_witness :
    (discGroups id [(0 : ℤ), 1, 1, 2] = rangeZ 3 ∧ 2 ≤ 3
        ∧ ∀ T : List ℤ, ((fun T : List ℤ => T.map (fun x : ℤ => (x : ℚ))) T).length = T.length)
      ∧ discXPlus id (fun v _ => v) [(0 : ℤ), 1, 1, 2]
          = some ([(0 : ℤ), 1, 1, 2].map
              (fun r => if id r < (3 : ℤ) - 1 then (fun v _ => v) (id r + 1) r else r)) :=
  ⟨⟨by decide, by decide, fun T => by simp⟩,
    (C3_neighbor_substitution_coded id (fun v _ => v) (fun T => T.map (fun x : ℤ => (x : ℚ)))
      [(0 : ℤ), 1, 1, 2] 3 (by decide) (by decide) (fun T => by simp)).1⟩

theorem zipWith_sub_all_zero {xs ys : List ℚ} {c : ℚ} (hx : ∀ a ∈ xs, a = c)
    (hy : ∀ b ∈ ys, b = c) : ∀ d ∈ List.zipWith (fun a b => a - b) xs ys, d = 0 := by
  induction xs generalizing ys with
  | nil => intro d hd; simp at hd
  | cons x xt ih =>
    intro d hd
    cases ys with
    | nil => simp at hd
    | cons y yt =>
      rcases List.mem_cons.mp hd with h | h
      · rw [h, hx x (List.mem_cons_self x xt), hy y (List.mem_cons_self y yt)]
        simp
      · exact ih (fun a ha => hx a (List.mem_cons_of_mem x ha))
          (fun b hb => hy b (List.mem_cons_of_mem y hb)) d h

theorem mem_upsertRow {ρ : Type} (hit : ρ → Bool) (z : ρ) (rows : List ρ) (s : ρ)
    (hs : s ∈ upsertRow hit z rows) : s = z ∨ s ∈ rows := by
  by_cases hany : rows.any hit
  · rw [upsertRow, if_pos hany] at hs
    rcases List.mem_map.mp hs with ⟨r, hr, hsr⟩
    by_cases h : hit r
    · rw [if_pos h] at hsr
      exact Or.inl hsr.symm
    · rw [if_neg h] at hsr
      exact Or.inr (hsr ▸ hr)
  · rw [upsertRow, if_neg hany] at hs
    rcases List.mem_append.mp hs with h | h
    · exact Or.inr h
    · exact Or.inl (by simpa using h)

theorem mem_maskedVals {α : Type} (mask : α → Bool) (X : List α) (ys : List ℚ) (x : ℚ)
    (hx : x ∈ maskedVals X ys mask) : x ∈ ys := by
  rcases List.mem_map.mp hx with ⟨p, hp, hpx⟩
  exact hpx ▸ (List.of_mem_zip (List.mem_of_mem_filter hp)).2

theorem cumsumD_zero (rows : List DRow) (h : ∀ r ∈ rows, r.delta = 0) :
    ∀ s ∈ cumsumD 0 rows, s.delta = 0 ∧ s.eff = 0 := by
  induction rows with
  | nil => intro s hs; simp [cumsumD] at hs
  | cons r rs ih =>
    intro s hs
    have hr : r.delta = 0 := h r (List.mem_cons_self r rs)
    have hhead : cumsumD 0 (r :: rs) = ⟨r.key, r.delta, 0 + r.delta⟩ :: cumsumD (0 + r.delta) rs :=
      rfl
    rw [hhead, hr, add_zero] at hs
    rcases List.mem_cons.mp hs with h2 | h2
    · rw [h2]
      exact ⟨rfl, rfl⟩
    · exact ih (fun t ht => h t (List.mem_cons_of_mem r ht)) s h2

theorem meanAt_zero {κ : Type} [DecidableEq κ] (dr : List (κ × ℚ)) (k : κ)
    (h : ∀ p ∈ dr, p.2 = 0) : meanAt dr k = 0 := by
  have hv : (valsAt dr k).sum = 0 := by
    refine List.sum_eq_zero ?_
    intro x hx
    rcases List.mem_map.mp hx with ⟨p, hp, hpx⟩
    exact hpx ▸ h p (List.mem_of_mem_filter hp)
  rw [meanAt, hv, zero_div]

section ConstantModel

variable {α : Type} (getF : α → ℚ) (setF : ℚ → α → α)
variable (predict : List α → List ℚ) (provider : List ℚ → List ℚ → List ℚ)
variable (X : List α) (g : ℕ)

theorem contDeltaRows_snd_zero (c : ℚ) (hconst : ∀ T, predict T = T.map (fun _ => c)) :
    ∀ p ∈ contDeltaRows getF setF predict provider X g, p.2 = 0 := by
  intro p hp
  have hd : p.2 ∈ contDeltas getF setF predict provider X g := (List.of_mem_zip hp).2
  rw [contDeltas, hconst, hconst] at hd
  refine zipWith_sub_all_zero (c := c) ?_ ?_ p.2 hd
  · intro a ha
    rcases List.mem_map.mp ha with ⟨_, _, h⟩
    exact h.symm
  · intro b hb
    rcases List.mem_map.mp hb with ⟨_, _, h⟩
    exact h.symm

theorem contRows_eff_zero (c : ℚ) (hconst : ∀ T, predict T = T.map (fun _ => c))
    (includeCI : Bool) (CIprov : List ℚ → ℚ → ℚ) (C : ℚ) :
    ∀ row ∈ contRows getF setF predict provider X g includeCI CIprov C, row.eff = 0 := by
  have hdr := contDeltaRows_snd_zero getF setF predict provider X g c hconst
  have hagg : ∀ r ∈ aggregateC (contDeltaRows getF setF predict provider X g), r.eff = 0 := by
    intro r hr
    rcases List.mem_map.mp hr with ⟨k, _, hkr⟩
    rw [← hkr]
    exact meanAt_zero _ k hdr
  have hcagg : contAgg getF setF predict provider X g
      = aggregateC (contDeltaRows getF setF predict provider X g) := by
    rw [contAgg]
    exact cumsumC_zero _ hagg
  have hAeff : ∀ r ∈ contAgg getF setF predict provider X g, r.eff = 0 := by
    rw [hcagg]
    exact hagg
  have hup : ∀ r ∈ contUpserted getF setF predict provider X g, r.eff = 0 := by
    intro r hr
    rcases mem_upsertRow _ _ _ r hr with h | h
    · rw [h]
    · exact hAeff r h
  have hmm : contMeanMvAvg getF setF predict provider X g = 0 := by
    rw [contMeanMvAvg, mvSum_zero_eff _ hup, zero_div]
  intro row hrow
  rcases List.mem_map.mp hrow with ⟨r, hr, hfr⟩
  rcases List.mem_map.mp hr with ⟨s, hs, hsr⟩
  have hse : s.eff = 0 := hup s ((mem_sortByKey ARow.key s _).mp hs)
  have hre : r.eff = 0 := by
    rw [← hsr]
    show s.eff - contMeanMvAvg getF setF predict provider X g = 0
    rw [hse, hmm, sub_zero]
  rw [← hfr]
  cases includeCI <;> simpa using hre

end ConstantModel

section ConstantModelDiscrete

variable {α : Type} (getZ : α → ℤ) (setZ : ℤ → α → α) (predictZ : List α → List ℚ)
variable (X : List α) (K : ℕ)

theorem discDeltaRows_snd_zero (XP XN : List α) (cd : ℚ)
    (hconst : ∀ T, predictZ T = T.map (fun _ => cd)) :
    ∀ p ∈ discDeltaRows getZ predictZ X XP XN, p.2 = 0 := by
  intro p hp
  rcases List.mem_append.mp hp with h | h
  · have hd : p.2 ∈ discDeltaPlus getZ predictZ X XP := (List.of_mem_zip h).2
    rw [discDeltaPlus] at hd
    simp only [hconst] at hd
    refine zipWith_sub_all_zero (c := cd) ?_ ?_ p.2 hd
    · intro a ha
      rcases List.mem_map.mp ha with ⟨_, _, h2⟩
      exact h2.symm
    · intro b hb
      have hby : b ∈ X.map (fun _ => cd) := mem_maskedVals _ _ _ b hb
      rcases List.mem_map.mp hby with ⟨_, _, h2⟩
      exact h2.symm
  · have hd : p.2 ∈ discDeltaNeg getZ predictZ X XN := (List.of_mem_zip h).2
    rw [discDeltaNeg] at hd
    simp only [hconst] at hd
    refine zipWith_sub_all_zero (c := cd) ?_ ?_ p.2 hd
    · intro a ha
      have hay : a ∈ X.map (fun _ => cd) := mem_maskedVals _ _ _ a ha
      rcases List.mem_map.mp hay with ⟨_, _, h2⟩
      exact h2.symm
    · intro b hb
      rcases List.mem_map.mp hb with ⟨_, _, h2⟩
      exact h2.symm

/-- Constant model on a coded discrete table: the estimator returns, and every
returned `eff` is `some 0`. -/
theorem discCompute_const_zero (cd : ℚ)
    (hconst : ∀ T, predictZ T = T.map (fun _ => cd))
    (hg : discGroups getZ X = rangeZ K) (hK : 2 ≤ K) :
    ∃ rows : List DRowOut, discCompute getZ setZ predictZ X = some rows
      ∧ ∀ r ∈ rows, r.eff = some 0 := by
  have hlen : ∀ T, (predictZ T).length = T.length := by
    intro T
    rw [hconst]
    simp
  set XP := X.map (fun r => if getZ r < (K : ℤ) - 1 then setZ (getZ r + 1) r else r) with hXPdef
  set XN := X.map (fun r => if 0 < getZ r then setZ (getZ r - 1) r else r) with hXNdef
  have hxp : discXPlus getZ setZ X = some XP := discXPlus_eq getZ setZ X K hg hK
  have hxn : discXNeg getZ setZ X = some XN := discXNeg_eq getZ setZ X K hg hK
  have hXPl : XP.length = X.length := by simp [hXPdef]
  have hXNl : XN.length = X.length := by simp [hXNdef]
  have hcomp : discCompute getZ setZ predictZ X
      = some (discRowsFrom getZ predictZ X XP XN) := by
    unfold discCompute
    rw [hxp, hxn]
  have hdz := discDeltaRows_snd_zero getZ predictZ X XP XN cd hconst
  have haggd : ∀ r ∈ aggregateD (discDeltaRows getZ predictZ X XP XN), r.delta = 0 := by
    intro r hr
    rcases List.mem_map.mp hr with ⟨k, _, hkr⟩
    rw [← hkr]
    exact meanAt_zero _ k hdz
  have hpre : ∀ r ∈ discPre getZ predictZ X XP XN, r.eff = 0 := by
    intro r hr
    rw [discPre_eq getZ predictZ X K XP XN hg hK hlen hXPl hXNl] at hr
    rcases List.mem_cons.mp hr with h | h
    · rw [h]
    · exact (cumsumD_zero _ haggd r h).2
  have hcen : discCenter getZ predictZ X XP XN = some 0 := by
    rw [discCenter_some getZ predictZ X K XP XN hg hK hlen hXPl hXNl]
    congr 1
    refine dotQ_zero_left _ _ ?_
    intro x hx
    rcases List.mem_map.mp hx with ⟨r, hr, hrx⟩
    exact hrx ▸ hpre r hr
  refine ⟨discRowsFrom getZ predictZ X XP XN, hcomp, ?_⟩
  intro r hr
  rcases List.mem_map.mp hr with ⟨s, hs, hsr⟩
  rw [← hsr]
  show (discCenter getZ predictZ X XP XN).map (fun c => s.eff - c) = some 0
  rw [hcen, hpre s hs]
  simp

end ConstantModelDiscrete

/-- C8: a model predicting a constant value regardless of input yields `eff`
identically 0 in both estimators' result tables (the discrete estimator on a
coded table also returns successfully). -/
theorem C8_constant_model_zero_eff {α β : Type} (getF : α → ℚ) (setF : ℚ → α → α)
    (predict : List α → List ℚ) (provider : List ℚ → List ℚ → List ℚ)
    (X : List α) (g : ℕ) (includeCI : Bool) (CIprov : List ℚ → ℚ → ℚ) (C : ℚ) (c : ℚ)
    (hconst : ∀ T, predict T = T.map (fun _ => c))
    (getZ : β → ℤ) (setZ : ℤ → β → β) (predictZ : List β → List ℚ) (Xd : List β)
    (K : ℕ) (cd : ℚ) (hconstd : ∀ T, predictZ T = T.map (fun _ => cd))
    (hg : discGroups getZ Xd = rangeZ K) (hK : 2 ≤ K) :
    (∀ row ∈ contRows getF setF predict provider X g includeCI CIprov C, row.eff = 0)
      ∧ ∃ rows : List DRowOut, discCompute getZ setZ predictZ Xd = some rows
          ∧ ∀ r ∈ rows, r.eff = some 0 :=
  ⟨contRows_eff_zero getF setF predict provider X g c hconst includeCI CIprov C,
    discCompute_const_zero getZ setZ predictZ Xd K cd hconstd hg hK⟩

/-- Witness for C8 at concrete constant models and tables. -/
theorem C8_constant_model_zero_eff_witness :
    ((∀ T : List ℚ, (fun T : List ℚ => T.map (fun _ => (7 : ℚ))) T = T.map (fun _ => (7 : ℚ)))
        ∧ (∀ T : List ℤ, (fun T : List ℤ => T.map (fun _ => (3 : ℚ))) T = T.map (fun _ => (3 : ℚ)))
        ∧ discGroups id [(0 : ℤ), 1, 1, 2] = rangeZ 3 ∧ 2 ≤ 3)
      ∧ (∀ row ∈ contRows id (fun v _ => v) (fun T : List ℚ => T.map (fun _ => (7 : ℚ)))
          (fun _ _ => [(0 : ℚ), 2, 3]) [(0 : ℚ), 1, 2, 3] 2 true (fun _ _ => 0) (95 / 100),
            row.eff = 0) :=
  ⟨⟨fun _ => rfl, fun _ => rfl, by decide, by decide⟩,
    (C8_constant_model_zero_eff id (fun v _ => v) (fun T : List ℚ => T.map (fun _ => (7 : ℚ)))
      (fun _ _ => [(0 : ℚ), 2, 3]) [(0 : ℚ), 1, 2, 3] 2 true (fun _ _ => 0) (95 / 100) 7
      (fun _ => rfl) id (fun v _ => v) (fun T : List ℤ => T.map (fun _ => (3 : ℚ)))
      [(0 : ℤ), 1, 1, 2] 3 3 (fun _ => rfl) (by decide) (by decide)).1⟩

/-- C9: replaying the perturbation statements over the heap, the feature
replacements hit only the two freshly copied tables: the caller's table at
address 0 is unchanged when either estimator's perturbation code finishes. -/
theorem C9_input_table_unchanged {α β : Type} (getF : α → ℚ) (setF : ℚ → α → α)
    (provider : List ℚ → List ℚ → List ℚ) (X0 : List α) (g : ℕ)
    (getZ : β → ℤ) (setZ : ℤ → β → β) (Y0 : List β)
    (h' : Heap β) (hd : discHeapRun getZ setZ Y0 = some h') :
    (contHeapRun getF setF provider X0 g).getD 0 [] = X0
      ∧ h'.getD 0 [] = Y0 := by
  constructor
  · rfl
  · simp only [discHeapRun] at hd
    split at hd
    · exact absurd hd (by simp)
    · split at hd
      · exact absurd hd (by simp)
      · have hh := Option.some_inj.mp hd
        rw [← hh]
        rfl

/-- Witness for C9 at concrete tables for both heap programs. -/
theorem C9_input_table_unchanged_witness :
    discHeapRun id (fun v _ => v) [(0 : ℤ), 1, 1, 2]
        = some [[0, 1, 1, 2], [1, 2, 2, 2], [0, 0, 0, 1]]
      ∧ ((contHeapRun id (fun v _ => v) (fun _ _ => [(0 : ℚ), 2, 3])
            [(0 : ℚ), 1, 2, 3] 2).getD 0 [] = [(0 : ℚ), 1, 2, 3]
          ∧ (([[0, 1, 1, 2], [1, 2, 2, 2], [0, 0, 0, 1]] : Heap ℤ).getD 0 []
              = [(0 : ℤ), 1, 1, 2])) :=
  ⟨by decide,
    C9_input_table_unchanged id (fun v _ => v) (fun _ _ => [(0 : ℚ), 2, 3]) [(0 : ℚ), 1, 2, 3] 2
      id (fun v _ => v) [(0 : ℤ), 1, 1, 2]
      [[0, 1, 1, 2], [1, 2, 2, 2], [0, 0, 0, 1]] (by decide)⟩

/-- Coded discrete table: the estimator returns, and the returned `eff` column
has zero mean under the empirical level proportions. -/
theorem discWeightedMean_zero {α : Type} (getZ : α → ℤ) (setZ : ℤ → α → α)
    (predictZ : List α → List ℚ) (X : List α) (K : ℕ)
    (hg : discGroups getZ X = rangeZ K) (hK : 2 ≤ K)
    (hlen : ∀ T, (predictZ T).length = T.length) :
    ∃ rows : List DRowOut, discCompute getZ setZ predictZ X = some rows
      ∧ seriesMulSum (rows.map (fun r => (r.key, r.eff.getD 0))) (discProps getZ X)
          = some 0 := by
  set XP := X.map (fun r => if getZ r < (K : ℤ) - 1 then setZ (getZ r + 1) r else r) with hXPdef
  set XN := X.map (fun r => if 0 < getZ r then setZ (getZ r - 1) r else r) with hXNdef
  have hxp : discXPlus getZ setZ X = some XP := discXPlus_eq getZ setZ X K hg hK
  have hxn : discXNeg getZ setZ X = some XN := discXNeg_eq getZ setZ X K hg hK
  have hXPl : XP.length = X.length := by simp [hXPdef]
  have hXNl : XN.length = X.length := by simp [hXNdef]
  have hcomp : discCompute getZ setZ predictZ X
      = some (discRowsFrom getZ predictZ X XP XN) := by
    unfold discCompute
    rw [hxp, hxn]
  set c := dotQ ((discPre getZ predictZ X XP XN).map DRow.eff)
    ((discProps getZ X).map Prod.snd) with hc
  have hcen : discCenter getZ predictZ X XP XN = some c :=
    discCenter_some getZ predictZ X K XP XN hg hK hlen hXPl hXNl
  refine ⟨discRowsFrom getZ predictZ X XP XN, hcomp, ?_⟩
  have heq : (discRowsFrom getZ predictZ X XP XN).map (fun r => (r.key, r.eff.getD 0))
      = (discPre getZ predictZ X XP XN).map (fun r => (r.key, r.eff - c)) := by
    rw [discRowsFrom, List.map_map]
    refine List.map_congr_left ?_
    intro r _
    show (r.key, ((discCenter getZ predictZ X XP XN).map (fun c0 => r.eff - c0)).getD 0)
        = (r.key, r.eff - c)
    rw [hcen]
    rfl
  rw [heq, seriesMulSum]
  have hkeys : ((discPre getZ predictZ X XP XN).map (fun r => (r.key, r.eff - c))).map
      Prod.fst = (discProps getZ X).map Prod.fst := by
    rw [discProps_map_fst, hg, List.map_map]
    have h2 : (discPre getZ predictZ X XP XN).map
        (Prod.fst ∘ fun r => (r.key, r.eff - c))
        = (discPre getZ predictZ X XP XN).map DRow.key :=
      List.map_congr_left (fun r _ => rfl)
    rw [h2, discPre_keys getZ predictZ X K XP XN hg hK hlen hXPl hXNl]
  rw [if_pos hkeys]
  have hsnd : ((discPre getZ predictZ X XP XN).map (fun r => (r.key, r.eff - c))).map
      Prod.snd = ((discPre getZ predictZ X XP XN).map DRow.eff).map (fun x => x - c) := by
    rw [List.map_map, List.map_map]
    exact List.map_congr_left (fun r _ => rfl)
  have hlpre : ((discPre getZ predictZ X XP XN).map DRow.eff).length
      = ((discProps getZ X).map Prod.snd).length := by
    have h1 := congrArg List.length (discPre_keys getZ predictZ X K XP XN hg hK hlen hXPl hXNl)
    have h2 := congrArg List.length (discProps_map_fst getZ X)
    simp only [List.length_map] at h1 h2 ⊢
    rw [h1, h2, hg]
  rw [hsnd, dotQ_map_sub c _ _ hlpre, discProps_sum getZ X K hg hK, ← hc]
  simp

/-- C1: the returned `eff` column has weighted mean zero — continuous: the
`size`-weighted mean of the two-point moving average over consecutive returned
rows vanishes; discrete: the mean of `eff` weighted by the empirical level
proportions vanishes (and the alignment is NaN-free). -/
theorem C1_weighted_mean_zero {α β : Type} (getF : α → ℚ) (setF : ℚ → α → α)
    (predict : List α → List ℚ) (provider : List ℚ → List ℚ → List ℚ)
    (X : List α) (g : ℕ) (includeCI : Bool) (CIprov : List ℚ → ℚ → ℚ) (C : ℚ)
    (hne : X ≠ [])
    (hcov : ∀ r ∈ X, (cutCode (contBins getF provider X g) (getF r)).isSome)
    (hlen : ∀ T, (predict T).length = T.length)
    (getZ : β → ℤ) (setZ : ℤ → β → β) (predictZ : List β → List ℚ) (Xd : List β) (K : ℕ)
    (hg : discGroups getZ Xd = rangeZ K) (hK : 2 ≤ K)
    (hlend : ∀ T, (predictZ T).length = T.length) :
    wStatOut (contRows getF setF predict provider X g includeCI CIprov C) = 0
      ∧ ∃ rows : List DRowOut, discCompute getZ setZ predictZ Xd = some rows
          ∧ seriesMulSum (rows.map (fun r => (r.key, r.eff.getD 0))) (discProps getZ Xd)
              = some 0 := by
  constructor
  · rcases contRows_pairSum_zero getF setF predict provider X g hne hcov hlen
      includeCI CIprov C with ⟨hp, _⟩
    rw [wStatOut, hp, zero_div]
  · exact discWeightedMean_zero getZ setZ predictZ Xd K hg hK hlend

/-- Witness for C1 at concrete tables, models and providers. -/
theorem C1_weighted_mean_zero_witness :
    (([(0 : ℚ), 1, 2, 3] ≠ []
        ∧ (∀ r ∈ [(0 : ℚ), 1, 2, 3],
            (cutCode (contBins id (fun _ _ => [(0 : ℚ), 2, 3]) [(0 : ℚ), 1, 2, 3] 2)
              (id r)).isSome)
        ∧ (∀ T : List ℚ, ((fun T : List ℚ => T.map (· * 2)) T).length = T.length)
        ∧ discGroups id [(0 : ℤ), 1, 1, 2] = rangeZ 3 ∧ 2 ≤ 3
        ∧ (∀ T : List ℤ, ((fun T : List ℤ => T.map (fun x : ℤ => (x : ℚ))) T).length
            = T.length)))
      ∧ wStatOut (contRows id (fun v _ => v) (fun T : List ℚ => T.map (· * 2))
          (fun _ _ => [(0 : ℚ), 2, 3]) [(0 : ℚ), 1, 2, 3] 2 true (fun _ _ => 0) (95 / 100))
          = 0 :=
  ⟨⟨by decide, by decide, fun T => by simp, by decide, by decide, fun T => by simp⟩,
    (C1_weighted_mean_zero id (fun v _ => v) (fun T : List ℚ => T.map (· * 2))
      (fun _ _ => [(0 : ℚ), 2, 3]) [(0 : ℚ), 1, 2, 3] 2 true (fun _ _ => 0) (95 / 100)
      (by decide) (by decide) (fun T => by simp) id (fun v _ => v)
      (fun T : List ℤ => T.map (fun x : ℤ => (x : ℚ))) [(0 : ℤ), 1, 1, 2] 3
      (by decide) (by decide) (fun T => by simp)).1⟩

end PyALE


